import Mathlib

/-!
Verification of the crawler in `src/assignments/Project/internal_links.py`.

Strings are modelled as lists of characters (`Str`).  The URL-handling
functions of CPython 3.11's `urllib.parse` that the crawler calls
(`urlsplit`, `urlparse`, `urlunsplit`, `urlunparse`, `urldefrag`) are
translated here from the stdlib source; the model is exact for strings
without bracketed IPv6 hosts (whose validation raises in CPython) and
treats case-folding at the ASCII level.
-/

/-- Strings are modelled as lists of characters. -/
abbrev Str := List Char

/-- Split a list at the first occurrence of `c`; the two parts exclude `c`
itself.  `none` when `c` does not occur.  Models `s.split(c, 1)` /
`s.find(c)` in Python. -/
def splitFirst (c : Char) : Str → Option (Str × Str)
  | [] => none
  | a :: rest =>
    if a = c then some ([], rest)
    else
      match splitFirst c rest with
      | some (b, af) => some (a :: b, af)
      | none => none

/-- Split a list at the last occurrence of `c` (parts exclude `c`);
`none` when `c` does not occur.  Models `s.rfind(c)`. -/
def splitLast (c : Char) : Str → Option (Str × Str)
  | [] => none
  | a :: rest =>
    match splitLast c rest with
    | some (x, y) => some (a :: x, y)
    | none => if a = c then some ([], rest) else none

/-- Python `path.rstrip("/")`. -/
def rstripSlash (s : Str) : Str := (s.reverse.dropWhile (fun c => c == '/')).reverse

/-- Boolean prefix test. -/
def prefB : Str → Str → Bool
  | [], _ => true
  | _ :: _, [] => false
  | a :: as_, b :: bs => a == b && prefB as_ bs

/-- Boolean substring test; models Python's `pat in s` on strings. -/
def substrB (pat : Str) : Str → Bool
  | [] => prefB pat []
  | b :: bs => prefB pat (b :: bs) || substrB pat bs

/-- Boolean suffix test; models Python's `s.endswith(pat)`. -/
def suffB (pat s : Str) : Bool := prefB pat.reverse s.reverse

/-- Characters stripped from the front of a URL by `urlsplit`
(WHATWG C0 controls and space). -/
def isC0OrSpace (c : Char) : Bool := c.toNat ≤ 32

/-- Characters removed everywhere in a URL by `urlsplit` (tab, CR, LF). -/
def isUnsafeByte (c : Char) : Bool := c == '\t' || c == '\r' || c == '\n'

/-- The cleanup `urlsplit` applies before parsing: strip leading C0
controls and spaces, then remove every tab, CR and LF. -/
def cleanUrl (s : Str) : Str := (s.dropWhile isC0OrSpace).filter (fun c => !isUnsafeByte c)

/-- Membership in CPython's `scheme_chars`. -/
def isSchemeChar (c : Char) : Bool := c.isAlpha || c.isDigit || c == '+' || c == '-' || c == '.'

/-- The scheme-candidate test of `urlsplit`: nonempty, leading ASCII
letter, and every character drawn from `scheme_chars`. -/
def schemeOk : Str → Bool
  | [] => false
  | c :: rest => c.isAlpha && (c :: rest).all isSchemeChar

/-- Characters ending the netloc in `_splitnetloc`. -/
def notDelim (c : Char) : Bool := !(c == '/' || c == '?' || c == '#')

/-- Result of `urllib.parse.urlsplit`. -/
structure SplitResult where
  scheme : Str
  netloc : Str
  path : Str
  query : Str
  fragment : Str
deriving DecidableEq, Repr

/-- Scheme detection of `urlsplit`: split at the first `:` when the part
before it is a valid lower-cased scheme, else leave the URL whole. -/
def splitScheme (url : Str) : Str × Str :=
  match splitFirst ':' url with
  | some (before, after) =>
    if schemeOk before then (before.map Char.toLower, after) else ([], url)
  | none => ([], url)

/-- `_splitnetloc`, applied when the remainder starts with `//`. -/
def splitNetloc (u1 : Str) : Str × Str :=
  if u1.take 2 = ['/', '/'] then
    ((u1.drop 2).takeWhile notDelim, (u1.drop 2).dropWhile notDelim)
  else ([], u1)

/-- Fragment split at the first `#`. -/
def splitFragment (u2 : Str) : Str × Str :=
  match splitFirst '#' u2 with
  | some (b, a) => (b, a)
  | none => (u2, [])

/-- Query split at the first `?`. -/
def splitQuery (u3 : Str) : Str × Str :=
  match splitFirst '?' u3 with
  | some (b, a) => (b, a)
  | none => (u3, [])

/-- Model of `urllib.parse.urlsplit` (CPython 3.11, `allow_fragments=True`,
default scheme `''`).  Bracketed-host validation (which raises in CPython)
is not modelled. -/
def urlsplit (url0 : Str) : SplitResult :=
  let url := cleanUrl url0
  let p1 := splitScheme url
  let p2 := splitNetloc p1.2
  let p3 := splitFragment p2.2
  let p4 := splitQuery p3.1
  ⟨p1.1, p2.1, p4.1, p4.2, p3.2⟩

/-- Result of `urllib.parse.urlparse`. -/
structure ParseResult where
  scheme : Str
  netloc : Str
  path : Str
  params : Str
  query : Str
  fragment : Str
deriving DecidableEq, Repr

/-- Model of `urllib.parse._splitparams`. -/
def paramSplit (p : Str) : Str × Str :=
  if p.contains '/' then
    match splitLast '/' p with
    | some (a, b) =>
      match splitFirst ';' b with
      | some (x, y) => (a ++ '/' :: x, y)
      | none => (p, [])
    | none => (p, [])
  else
    match splitFirst ';' p with
    | some (x, y) => (x, y)
    | none => (p, [])

/-- CPython's `uses_params` list. -/
def USES_PARAMS : List Str :=
  [] :: (["ftp", "hdl", "prospero", "http", "imap", "https", "shttp", "rtsp",
          "rtsps", "rtspu", "sip", "sips", "mms", "sftp", "tel"].map String.toList)

/-- CPython's `uses_netloc` list. -/
def USES_NETLOC : List Str :=
  [] :: (["ftp", "http", "gopher", "nntp", "telnet", "imap", "wais", "file",
          "mms", "https", "shttp", "snews", "prospero", "rtsp", "rtsps",
          "rtspu", "rsync", "svn", "svn+ssh", "sftp", "nfs", "git", "git+ssh",
          "ws", "wss"].map String.toList)

/-- Model of `urllib.parse.urlparse`. -/
def urlparse (url : Str) : ParseResult :=
  let s := urlsplit url
  if s.scheme ∈ USES_PARAMS ∧ s.path.contains ';' then
    let pr := paramSplit s.path
    ⟨s.scheme, s.netloc, pr.1, pr.2, s.query, s.fragment⟩
  else ⟨s.scheme, s.netloc, s.path, [], s.query, s.fragment⟩

/-- Model of `urllib.parse.urlunsplit` (CPython 3.11). -/
def urlunsplit (scheme netloc path query fragment : Str) : Str :=
  let url := path
  let url :=
    if netloc ≠ [] ∨ (scheme ≠ [] ∧ scheme ∈ USES_NETLOC ∧ url.take 2 ≠ ['/', '/']) then
      let url2 := if url ≠ [] ∧ url.take 1 ≠ ['/'] then '/' :: url else url
      '/' :: '/' :: (netloc ++ url2)
    else url
  let url := if scheme ≠ [] then scheme ++ ':' :: url else url
  let url := if query ≠ [] then url ++ '?' :: query else url
  if fragment ≠ [] then url ++ '#' :: fragment else url

/-- Model of `urllib.parse.urlunparse`. -/
def urlunparse (r : ParseResult) : Str :=
  let u := if r.params ≠ [] then r.path ++ ';' :: r.params else r.path
  urlunsplit r.scheme r.netloc u r.query r.fragment

/-- Model of `urllib.parse.urldefrag` (only the defragmented URL). -/
def urldefrag (url : Str) : Str :=
  if url.contains '#' then
    let p := urlparse url
    urlunparse ⟨p.scheme, p.netloc, p.path, p.params, p.query, []⟩
  else url

/-- Lines 110-113 of `internal_links.py`: drop an explicit default port. -/
def stripPort (scheme netloc : Str) : Str :=
  match splitFirst ':' netloc with
  | some (host, port) =>
    if (scheme = "http".toList ∧ port = "80".toList) ∨
       (scheme = "https".toList ∧ port = "443".toList)
    then host else netloc
  | none => netloc

/-- Lines 109-113 of `internal_links.py`: lower-case the netloc, then drop
an explicit default port. -/
def normalizeNetloc (scheme nl : Str) : Str := stripPort scheme (nl.map Char.toLower)

/-- Lines 114-116 of `internal_links.py`: default an empty path to "/",
strip trailing slashes from any other path. -/
def normalizePath (p : Str) : Str :=
  let path := if p = [] then ['/'] else p
  if path ≠ ['/'] then rstripSlash path else path

/-- The body of `normalize_url` (lines 104-120 of `internal_links.py`)
after the optional `urljoin` step. -/
def normalize_core (raw : Str) : Option Str :=
  let nofrag := urldefrag raw
  let parsed := urlparse nofrag
  if parsed.scheme ≠ [] ∧ parsed.scheme.map Char.toLower ∉ ["http".toList, "https".toList] then
    none
  else
    let scheme := if parsed.scheme = [] then "https".toList else parsed.scheme
    some (urlunparse ⟨scheme, normalizeNetloc scheme parsed.netloc,
                      normalizePath parsed.path, [], parsed.query, []⟩)

/-- `normalize_url` of `internal_links.py`.  Relative-URL resolution
(`urllib.parse.urljoin`, invoked only when `base_for_join` is truthy) is an
external capability passed in as `join`. -/
def normalize_url (join : Str → Str → Str) (raw : Str) (base : Option Str) : Option Str :=
  let raw1 :=
    match base with
    | some b => if b ≠ [] then join b raw else raw
    | none => raw
  normalize_core raw1

/-- Line 98 of `internal_links.py`. -/
def IGNORED_SCHEMES : List Str := ["mailto", "javascript", "tel", "data", ""].map String.toList

/-- Set insertion for a set modelled as a duplicate-free list (insertion
order); models `links.add(x)`. -/
def addSet (x : Str) (l : List Str) : List Str := if x ∈ l then l else l ++ [x]

/-- A fetched-and-parsed page.  The HTML parser is an external collaborator
(spec section 1), so a parse tree is abstracted to exactly the queries the
crawler performs on it: the `<base href>` override, the raw `href`/`src`
attribute values of `a`/`area`/`link`/`iframe`/`frame` tags in document
order, the `img src` values (collected but never emitted), and the visible
text that `get_visible_text_without_mutation` extracts. -/
structure Soup where
  baseHref : Option Str
  candidates : List Str
  imgSrcs : List Str
  visibleText : Str
deriving DecidableEq

/-- Model of `extract_links_from_soup` (lines 123-153): resolve each raw
candidate against the effective base, discard candidates with an ignored
scheme, normalize, and collect the results as a set.  The `img src` loop
(lines 146-151) normalizes and discards its result, so it has no effect on
the returned set and is not repeated here.  `extractStep` is one iteration
of the candidate loop (lines 135-144). -/
def extractStep (join : Str → Str → Str) (base : Str) (links : List Str) (raw : Str) :
    List Str :=
  if raw = [] then links
  else
    let parsed := urlsplit raw
    if parsed.scheme ≠ [] ∧ parsed.scheme.map Char.toLower ∈ IGNORED_SCHEMES then links
    else
      match normalize_url join raw (some base) with
      | some n => addSet n links
      | none => links

def extract_links_from_soup (join : Str → Str → Str) (soup : Soup) (currentUrl : Str) :
    List Str :=
  let base := match soup.baseHref with | some b => b | none => currentUrl
  soup.candidates.foldl (extractStep join base) []

/-- A stored page record (lines 223-229). -/
structure PageDoc where
  url : Str
  text : Str
  text_length : Nat
  scraped_at : Str
  domain : Str
deriving DecidableEq, Repr

/-- External collaborators of the crawl loop: relative-URL resolution,
transport+parsing (`none` models any fetch/parse exception), the YouTube
transcript enricher (`none` models every failure path of
`get_youtube_transcription`), the UTC clock, and the configured base
domain. -/
structure CrawlConfig where
  join : Str → Str → Str
  fetch : Str → Option Soup
  transcript : Str → Option Str
  clock : Nat → Str
  baseDomain : Str

/-- Lines 169-170: `urlparse(base_domain).netloc.lower()`. -/
def base_netloc (cfg : CrawlConfig) : Str := (urlsplit cfg.baseDomain).netloc.map Char.toLower

/-- The mutable state of `scrape_and_store_locally`'s loop.  `visited` and
`internal` are sets modelled as lists (only membership is meaningful); the
queue holds the optional seed (`normalize_url` may return `None`) and the
plain strings appended later. -/
structure CrawlState where
  queue : List (Option Str)
  visited : List Str
  internal : List Str
  pages : List PageDoc
  pagesCrawled : Nat
deriving DecidableEq, Repr

/-- Accumulator of the `for link in found_links` loop (lines 207-219). -/
structure LinkAcc where
  queue : List (Option Str)
  internal : List Str
  yt : Option Str
deriving DecidableEq, Repr

/-- Line 216: `"youtube.com" in parsed_link.netloc or "youtu.be" in
parsed_link.netloc`. -/
def isYoutubeNetloc (nl : Str) : Bool :=
  substrB "youtube.com".toList nl || substrB "youtu.be".toList nl

/-- Model of the `for link in found_links` loop (lines 207-219).  The
found-links set is iterated in insertion order (CPython iterates a `set`
in an unspecified order; only the final transcript assignment depends on
it).  `visited` is fixed during the loop; the queue and the internal-link
set grow; each YouTube-classified link overwrites `youtube_transcription`
with its own (possibly absent) transcript. -/
def processLinks (cfg : CrawlConfig) (visited : List Str) : List Str → LinkAcc → LinkAcc
  | [], acc => acc
  | link :: rest, acc =>
    let nl := (urlsplit link).netloc
    let acc1 :=
      if nl = base_netloc cfg then
        let internal1 := addSet link acc.internal
        let queue1 :=
          if link ∉ visited ∧ some link ∉ acc.queue then acc.queue ++ [some link] else acc.queue
        ⟨queue1, internal1, acc.yt⟩
      else if isYoutubeNetloc nl then ⟨acc.queue, acc.internal, cfg.transcript link⟩
      else acc
    processLinks cfg visited rest acc1

/-- Line 188: `if max_pages and pages_crawled >= max_pages` — the cap only
fires for a truthy (non-`None`, nonzero) `max_pages`. -/
def capHit (maxPages : Option Nat) (pagesCrawled : Nat) : Bool :=
  match maxPages with
  | none => false
  | some m => decide (m ≠ 0 ∧ m ≤ pagesCrawled)

/-- Lines 195-240: processing of one dequeued, nonempty, unvisited URL
`u`, with `rest` the remaining queue.  The URL is first marked visited and
counted; a `none` fetch result covers both `except` arms (lines 235-240)
— the page is abandoned with `visited` and `pages_crawled` already
updated, nothing else changed.  On success the found links are folded over
(line 207), the text is the last YouTube transcript if truthy, otherwise
the visible text (line 221), and the document is appended (line 230). -/
def crawlBody (cfg : CrawlConfig) (u : Str) (rest : List (Option Str)) (st : CrawlState) :
    CrawlState :=
  let visited1 := u :: st.visited
  let crawled1 := st.pagesCrawled + 1
  match cfg.fetch u with
  | none => ⟨rest, visited1, st.internal, st.pages, crawled1⟩
  | some soup =>
    let found := extract_links_from_soup cfg.join soup u
    let acc := processLinks cfg visited1 found ⟨rest, st.internal, none⟩
    let text :=
      match acc.yt with
      | some t => if t ≠ [] then t else soup.visibleText
      | none => soup.visibleText
    let doc : PageDoc := ⟨u, text, text.length, cfg.clock crawled1, cfg.baseDomain⟩
    ⟨acc.queue, visited1, acc.internal, st.pages ++ [doc], crawled1⟩

/-- One-to-one model of the `while queue` loop of
`scrape_and_store_locally` (lines 187-240), with explicit fuel: with fuel
`n` at most `n` iterations run, after which the current state is returned
as-is (the termination theorem shows some fuel always empties the queue).
Falsy (`None` or empty) and already-visited URLs are skipped (line 193). -/
def crawlLoop (cfg : CrawlConfig) (maxPages : Option Nat) : Nat → CrawlState → CrawlState
  | 0, st => st
  | fuel + 1, st =>
    match st.queue with
    | [] => st
    | cur :: rest =>
      if capHit maxPages st.pagesCrawled then st
      else
        match cur with
        | none => crawlLoop cfg maxPages fuel { st with queue := rest }
        | some u =>
          if u = [] ∨ u ∈ st.visited then crawlLoop cfg maxPages fuel { st with queue := rest }
          else crawlLoop cfg maxPages fuel (crawlBody cfg u rest st)

/-- Lines 171-174: initial loop state, the queue seeded with
`normalize_url(start_url)`. -/
def initState (start : Str) : CrawlState := ⟨[normalize_core start], [], [], [], 0⟩

/-- The crawl of `scrape_and_store_locally`, returning
`(internal_links, pages_stored)` (line 254); `pages_stored` is incremented
exactly when a document is appended, so it equals the collection length. -/
def scrape_and_store_locally (cfg : CrawlConfig) (start : Str) (maxPages : Option Nat)
    (fuel : Nat) : List Str × Nat :=
  let st := crawlLoop cfg maxPages fuel (initState start)
  (st.internal, st.pages.length)

/-- Lines 242-252: persist the document collection, choosing the
compressed encoding when the output path ends in `.gz`.  JSON
serialization and gzip compression are external capabilities (spec
section 1) passed in as `enc` and `gzipC`; the function returns the bytes
written. -/
def save_scraped_pages (enc : List PageDoc → Str) (gzipC : Str → Str) (outputFile : Str)
    (docs : List PageDoc) : Str :=
  if suffB ".gz".toList outputFile then gzipC (enc docs) else enc docs

/-- Model of `load_scraped_data` (lines 257-269) reading back `content`:
decompress when the input path ends in `.gz`, then deserialize; any
failure (`none` from a capability) is the `except` arm returning `[]`. -/
def load_scraped_data (dec : Str → Option (List PageDoc)) (gunzipC : Str → Option Str)
    (inputFile : Str) (content : Str) : List PageDoc :=
  if suffB ".gz".toList inputFile then
    match gunzipC content with
    | some b => match dec b with | some d => d | none => []
    | none => []
  else
    match dec content with | some d => d | none => []

/-! ### Basic lemmas about the string primitives -/

theorem splitFirst_eq_none {c : Char} : ∀ {l : Str}, splitFirst c l = none → c ∉ l := by
  intro l
  induction l with
  | nil => intro _ h; cases h
  | cons a rest ih =>
    intro h hm
    by_cases hac : a = c
    · simp [splitFirst, hac] at h
    · simp only [splitFirst, if_neg hac] at h
      cases hsf : splitFirst c rest with
      | some p => rw [hsf] at h; obtain ⟨b, af⟩ := p; simp at h
      | none =>
        rcases List.mem_cons.mp hm with h1 | h2
        · exact hac h1.symm
        · exact ih hsf h2

theorem splitFirst_of_not_mem {c : Char} : ∀ {l : Str}, c ∉ l → splitFirst c l = none := by
  intro l
  induction l with
  | nil => intro _; rfl
  | cons a rest ih =>
    intro h
    have hac : ¬ a = c := fun he => h (he ▸ List.mem_cons_self a rest)
    have hr : c ∉ rest := fun hm => h (List.mem_cons_of_mem a hm)
    simp only [splitFirst, if_neg hac, ih hr]

theorem splitFirst_eq_some {c : Char} :
    ∀ {l b a : Str}, splitFirst c l = some (b, a) → l = b ++ c :: a ∧ c ∉ b := by
  intro l
  induction l with
  | nil => intro b a h; simp [splitFirst] at h
  | cons x rest ih =>
    intro b a h
    by_cases hxc : x = c
    · simp only [splitFirst, if_pos hxc, Option.some.injEq, Prod.mk.injEq] at h
      obtain ⟨hb, ha⟩ := h
      refine ⟨?_, ?_⟩
      · rw [← hb, ← ha, hxc]; rfl
      · rw [← hb]; exact List.not_mem_nil c
    · simp only [splitFirst, if_neg hxc] at h
      cases hsf : splitFirst c rest with
      | none => rw [hsf] at h; simp at h
      | some p =>
        obtain ⟨b', a'⟩ := p
        rw [hsf] at h
        simp only [Option.some.injEq, Prod.mk.injEq] at h
        obtain ⟨hb, ha⟩ := h
        obtain ⟨hl, hnb⟩ := ih hsf
        constructor
        · rw [← hb, ← ha, List.cons_append, ← hl]
        · rw [← hb]
          intro hm
          rcases List.mem_cons.mp hm with h1 | h2
          · exact hxc h1.symm
          · exact hnb h2

theorem splitFirst_append {c : Char} :
    ∀ {xs : Str} (ys : Str), c ∉ xs → splitFirst c (xs ++ c :: ys) = some (xs, ys) := by
  intro xs
  induction xs with
  | nil => intro ys _; simp [splitFirst]
  | cons a rest ih =>
    intro ys h
    have hac : ¬ a = c := fun he => h (he ▸ List.mem_cons_self a rest)
    have hr : c ∉ rest := fun hm => h (List.mem_cons_of_mem a hm)
    show splitFirst c (a :: (rest ++ c :: ys)) = some (a :: rest, ys)
    simp only [splitFirst, if_neg hac, ih ys hr]

theorem splitLast_eq_none {c : Char} : ∀ {l : Str}, splitLast c l = none → c ∉ l := by
  intro l
  induction l with
  | nil => intro _ h; cases h
  | cons a rest ih =>
    intro h hm
    simp only [splitLast] at h
    cases hsl : splitLast c rest with
    | some p => rw [hsl] at h; obtain ⟨x, y⟩ := p; simp at h
    | none =>
      rw [hsl] at h
      by_cases hac : a = c
      · simp [hac] at h
      · rcases List.mem_cons.mp hm with h1 | h2
        · exact hac h1.symm
        · exact ih hsl h2

theorem splitLast_eq_some {c : Char} :
    ∀ {l a b : Str}, splitLast c l = some (a, b) → l = a ++ c :: b ∧ c ∉ b := by
  intro l
  induction l with
  | nil => intro a b h; simp [splitLast] at h
  | cons x rest ih =>
    intro a b h
    simp only [splitLast] at h
    cases hsl : splitLast c rest with
    | some p =>
      obtain ⟨a', b'⟩ := p
      rw [hsl] at h
      simp only [Option.some.injEq, Prod.mk.injEq] at h
      obtain ⟨ha, hb⟩ := h
      obtain ⟨hl, hnb⟩ := ih hsl
      constructor
      · rw [← ha, ← hb, List.cons_append, ← hl]
      · rw [← hb]; exact hnb
    | none =>
      rw [hsl] at h
      by_cases hxc : x = c
      · simp only [if_pos hxc, Option.some.injEq, Prod.mk.injEq] at h
        obtain ⟨ha, hb⟩ := h
        refine ⟨?_, ?_⟩
        · rw [← ha, ← hb, hxc]; rfl
        · rw [← hb]; exact splitLast_eq_none hsl
      · simp [if_neg hxc] at h

/-- Members of either part of `splitFirst` are members of the input. -/
theorem splitFirst_mem {c : Char} {l b a : Str} (h : splitFirst c l = some (b, a)) :
    (∀ x ∈ b, x ∈ l) ∧ (∀ x ∈ a, x ∈ l) := by
  obtain ⟨hl, -⟩ := splitFirst_eq_some h
  subst hl
  constructor
  · intro x hx; exact List.mem_append_left _ hx
  · intro x hx; exact List.mem_append_right _ (List.mem_cons_of_mem _ hx)

theorem rstripSlash_eq_nil_iff {s : Str} : rstripSlash s = [] ↔ ∀ c ∈ s, c = '/' := by
  unfold rstripSlash
  rw [List.reverse_eq_nil_iff, List.dropWhile_eq_nil_iff]
  constructor
  · intro h c hc
    have := h c (List.mem_reverse.mpr hc)
    exact eq_of_beq this
  · intro h c hc
    have := h c (List.mem_reverse.mp hc)
    simp [this]

/-- The output of `rstripSlash` never ends in a slash (unless empty). -/
theorem rstripSlash_getLast? {s : Str} : (rstripSlash s).getLast? ≠ some '/' := by
  unfold rstripSlash
  rw [List.getLast?_reverse]
  intro hh
  have hne : s.reverse.dropWhile (fun c => c == '/') ≠ [] := by
    intro hx; rw [hx] at hh; simp at hh
  have hhead := List.head_dropWhile_not (fun c => c == '/') s.reverse hne
  rw [List.head?_eq_head hne] at hh
  simp only [Option.some.injEq] at hh
  rw [hh] at hhead
  simp at hhead

/-- A string not ending in `'/'` is unchanged by `rstripSlash`. -/
theorem rstripSlash_eq_self {s : Str} (h : s.getLast? ≠ some '/') : rstripSlash s = s := by
  unfold rstripSlash
  cases hrev : s.reverse with
  | nil =>
    have : s = [] := List.reverse_eq_nil_iff.mp hrev
    rw [this]; rfl
  | cons a t =>
    have ha : ¬ (a == '/') = true := by
      intro hb
      apply h
      rw [List.getLast?_eq_head?_reverse, hrev]
      simp [eq_of_beq hb]
    have hdw : List.dropWhile (fun c => c == '/') (a :: t) = a :: t :=
      List.dropWhile_cons_of_neg ha
    rw [hdw, ← hrev, List.reverse_reverse]

theorem rstripSlash_idem (s : Str) : rstripSlash (rstripSlash s) = rstripSlash s :=
  rstripSlash_eq_self rstripSlash_getLast?

/-- Fixed points of `rstripSlash` are closed under passing to a nonempty
suffix. -/
theorem rstripSlash_suffix {x y : Str} (h : rstripSlash (x ++ y) = x ++ y) :
    rstripSlash y = y := by
  apply rstripSlash_eq_self
  intro hl
  apply @rstripSlash_getLast? (x ++ y)
  rw [h, List.getLast?_append]
  rw [hl]
  rfl

/-- `Char.toLower` is idempotent. -/
theorem toLower_toLower (c : Char) : c.toLower.toLower = c.toLower := by
  by_cases h : 65 ≤ c.toNat ∧ c.toNat ≤ 90
  · have h1 : Char.toLower c = Char.ofNat (c.toNat + 32) := by
      unfold Char.toLower
      rw [if_pos ⟨h.1, h.2⟩]
    rw [h1]
    obtain ⟨ha, hb⟩ := h
    set n := c.toNat with hn
    interval_cases n <;> decide
  · have h1 : Char.toLower c = c := by
      unfold Char.toLower
      rw [if_neg]
      intro hx
      exact h ⟨hx.1, hx.2⟩
    rw [h1, h1]

/-- `Char.toLower` fixes any character whose image is outside `a`-`z`; in
particular it cannot create URL delimiters. -/
theorem toLower_eq_of_not_lower {c d : Char} (hd : ¬(97 ≤ d.toNat ∧ d.toNat ≤ 122))
    (h : c.toLower = d) : c = d := by
  by_cases hc : 65 ≤ c.toNat ∧ c.toNat ≤ 90
  · exfalso
    have h1 : Char.toLower c = Char.ofNat (c.toNat + 32) := by
      unfold Char.toLower
      rw [if_pos ⟨hc.1, hc.2⟩]
    rw [h1] at h
    obtain ⟨ha, hb⟩ := hc
    set n := c.toNat with hn
    interval_cases n <;> (apply hd; rw [← h]; decide)
  · have h1 : Char.toLower c = c := by
      unfold Char.toLower
      rw [if_neg]
      intro hx
      exact hc ⟨hx.1, hx.2⟩
    rw [h1] at h
    exact h

/-! ### Unfolding and invariant lemmas for the crawl loop -/

theorem crawlLoop_queue_nil (cfg : CrawlConfig) (mp : Option Nat) (fuel : Nat)
    (st : CrawlState) (hq : st.queue = []) : crawlLoop cfg mp fuel st = st := by
  obtain ⟨q, vis, intl, pgs, pc⟩ := st
  simp only at hq
  subst hq
  cases fuel with
  | zero => rfl
  | succ f => rfl

theorem crawlLoop_succ_cap {cfg : CrawlConfig} {mp : Option Nat} {f : Nat} {st : CrawlState}
    {cur : Option Str} {rest : List (Option Str)} (hq : st.queue = cur :: rest)
    (hc : capHit mp st.pagesCrawled = true) : crawlLoop cfg mp (f + 1) st = st := by
  obtain ⟨q, vis, intl, pgs, pc⟩ := st
  simp only at hq hc
  subst hq
  simp only [crawlLoop, hc, if_true]

theorem crawlLoop_succ_none {cfg : CrawlConfig} {mp : Option Nat} {f : Nat} {st : CrawlState}
    {rest : List (Option Str)} (hq : st.queue = none :: rest)
    (hc : capHit mp st.pagesCrawled = false) :
    crawlLoop cfg mp (f + 1) st = crawlLoop cfg mp f { st with queue := rest } := by
  obtain ⟨q, vis, intl, pgs, pc⟩ := st
  simp only at hq hc
  subst hq
  simp only [crawlLoop, hc, Bool.false_eq_true, if_false]

theorem crawlLoop_succ_skip {cfg : CrawlConfig} {mp : Option Nat} {f : Nat} {st : CrawlState}
    {u : Str} {rest : List (Option Str)} (hq : st.queue = some u :: rest)
    (hc : capHit mp st.pagesCrawled = false) (hu : u = [] ∨ u ∈ st.visited) :
    crawlLoop cfg mp (f + 1) st = crawlLoop cfg mp f { st with queue := rest } := by
  obtain ⟨q, vis, intl, pgs, pc⟩ := st
  simp only at hq hc hu
  subst hq
  simp only [crawlLoop, hc, Bool.false_eq_true, if_false, if_pos hu]

theorem crawlLoop_succ_process {cfg : CrawlConfig} {mp : Option Nat} {f : Nat} {st : CrawlState}
    {u : Str} {rest : List (Option Str)} (hq : st.queue = some u :: rest)
    (hc : capHit mp st.pagesCrawled = false) (hu : ¬(u = [] ∨ u ∈ st.visited)) :
    crawlLoop cfg mp (f + 1) st = crawlLoop cfg mp f (crawlBody cfg u rest st) := by
  obtain ⟨q, vis, intl, pgs, pc⟩ := st
  simp only at hq hc hu
  subst hq
  simp only [crawlLoop, hc, Bool.false_eq_true, if_false, if_neg hu]

/-- Generic invariant preservation: a predicate preserved by dequeuing and
by the loop body is preserved by any number of loop iterations. -/
theorem crawlLoop_inv {cfg : CrawlConfig} {mp : Option Nat} (P : CrawlState → Prop)
    (hpop : ∀ st cur rest, st.queue = cur :: rest → capHit mp st.pagesCrawled = false →
      P st → P { st with queue := rest })
    (hbody : ∀ st u rest, st.queue = some u :: rest → capHit mp st.pagesCrawled = false →
      u ≠ [] → u ∉ st.visited → P st → P (crawlBody cfg u rest st)) :
    ∀ fuel st, P st → P (crawlLoop cfg mp fuel st) := by
  intro fuel
  induction fuel with
  | zero => intro st h; exact h
  | succ f ih =>
    intro st h
    cases hq : st.queue with
    | nil => rw [crawlLoop_queue_nil cfg mp (f + 1) st hq]; exact h
    | cons cur rest =>
      by_cases hc : capHit mp st.pagesCrawled = true
      · rw [crawlLoop_succ_cap hq hc]; exact h
      · have hc' : capHit mp st.pagesCrawled = false := Bool.eq_false_iff.mpr hc
        cases cur with
        | none => rw [crawlLoop_succ_none hq hc']; exact ih _ (hpop st none rest hq hc' h)
        | some u =>
          by_cases hu : u = [] ∨ u ∈ st.visited
          · rw [crawlLoop_succ_skip hq hc' hu]; exact ih _ (hpop st (some u) rest hq hc' h)
          · rw [crawlLoop_succ_process hq hc' hu]
            push_neg at hu
            exact ih _ (hbody st u rest hq hc' hu.1 hu.2 h)

/-- The visited set only grows. -/
theorem crawlLoop_visited_mono {cfg : CrawlConfig} {mp : Option Nat} {x : Str}
    (fuel : Nat) (st : CrawlState) (h : x ∈ st.visited) :
    x ∈ (crawlLoop cfg mp fuel st).visited := by
  refine crawlLoop_inv (fun s => x ∈ s.visited) ?_ ?_ fuel st h
  · intro st cur rest _ _ hx; exact hx
  · intro st u rest _ _ _ _ hx
    unfold crawlBody
    cases cfg.fetch u with
    | none => exact List.mem_cons_of_mem u hx
    | some soup => exact List.mem_cons_of_mem u hx

/-- The stored document collection only grows. -/
theorem crawlLoop_pages_mono {cfg : CrawlConfig} {mp : Option Nat} {d : PageDoc}
    (fuel : Nat) (st : CrawlState) (h : d ∈ st.pages) :
    d ∈ (crawlLoop cfg mp fuel st).pages := by
  refine crawlLoop_inv (fun s => d ∈ s.pages) ?_ ?_ fuel st h
  · intro st cur rest _ _ hx; exact hx
  · intro st u rest _ _ _ _ hx
    unfold crawlBody
    cases cfg.fetch u with
    | none => exact hx
    | some soup => exact List.mem_append_left _ hx

theorem crawlBody_pagesCrawled (cfg : CrawlConfig) (u : Str) (rest : List (Option Str))
    (st : CrawlState) : (crawlBody cfg u rest st).pagesCrawled = st.pagesCrawled + 1 := by
  unfold crawlBody
  cases cfg.fetch u with
  | none => rfl
  | some soup => rfl

theorem crawlLoop_cap_zero (cfg : CrawlConfig) : ∀ (fuel : Nat) (st : CrawlState),
    crawlLoop cfg (some 0) fuel st = crawlLoop cfg none fuel st := by
  intro fuel
  induction fuel with
  | zero => intro st; rfl
  | succ f ih =>
    intro st
    cases hq : st.queue with
    | nil => rw [crawlLoop_queue_nil cfg (some 0) (f + 1) st hq,
                 crawlLoop_queue_nil cfg none (f + 1) st hq]
    | cons cur rest =>
      have hc0 : capHit (some 0) st.pagesCrawled = false := by simp [capHit]
      have hcn : capHit none st.pagesCrawled = false := rfl
      cases cur with
      | none => rw [crawlLoop_succ_none hq hc0, crawlLoop_succ_none hq hcn]; exact ih _
      | some u =>
        by_cases hu : u = [] ∨ u ∈ st.visited
        · rw [crawlLoop_succ_skip hq hc0 hu, crawlLoop_succ_skip hq hcn hu]; exact ih _
        · rw [crawlLoop_succ_process hq hc0 hu, crawlLoop_succ_process hq hcn hu]; exact ih _

theorem crawlLoop_cap_le {cfg : CrawlConfig} {k : Nat} (hk : k ≠ 0) (fuel : Nat)
    (st : CrawlState) (h : st.pagesCrawled ≤ k) :
    (crawlLoop cfg (some k) fuel st).pagesCrawled ≤ k := by
  refine crawlLoop_inv (fun s => s.pagesCrawled ≤ k) ?_ ?_ fuel st h
  · intro st cur rest _ _ hx; exact hx
  · intro st u rest _ hc _ _ _
    rw [crawlBody_pagesCrawled]
    have : ¬(k ≠ 0 ∧ k ≤ st.pagesCrawled) := by
      intro hx
      rw [show capHit (some k) st.pagesCrawled = decide (k ≠ 0 ∧ k ≤ st.pagesCrawled) from rfl]
        at hc
      rw [decide_eq_true hx] at hc
      cases hc
    omega

/-- C10: with `max_pages = 0` the cap check never fires (Python truthiness
makes `0` behave exactly like `None`), so the crawl is unbounded; the cap
bound `pages_crawled ≤ max_pages` is guaranteed whenever `max_pages` is a
nonzero count. -/
theorem claim_C10_cap_zero_unbounded :
    (∀ (cfg : CrawlConfig) (fuel : Nat) (st : CrawlState),
      crawlLoop cfg (some 0) fuel st = crawlLoop cfg none fuel st) ∧
    (∀ (cfg : CrawlConfig) (k : Nat) (start : Str) (fuel : Nat), k ≠ 0 →
      (crawlLoop cfg (some k) fuel (initState start)).pagesCrawled ≤ k) := by
  constructor
  · exact crawlLoop_cap_zero
  · intro cfg k start fuel hk
    exact crawlLoop_cap_le hk fuel (initState start) (Nat.zero_le k)

/-- A trivial crawl configuration used to witness hypotheses at concrete
inputs: every fetch fails. -/
def trivCfg : CrawlConfig :=
  ⟨fun _ r => r, fun _ => none, fun _ => none, fun _ => [], "https://x.com".toList⟩

/-- Witness for C10 at a concrete configuration and cap. -/
theorem claim_C10_cap_zero_unbounded_witness :
    (1 : Nat) ≠ 0 ∧
      (crawlLoop trivCfg (some 1) 5 (initState "https://x.com".toList)).pagesCrawled ≤ 1 :=
  ⟨by decide,
   claim_C10_cap_zero_unbounded.2 trivCfg 1 "https://x.com".toList 5 (by decide)⟩

/-- C4 (counterexample part): the input `https://x.com//` has the non-root
parsed path `//`, which `rstrip("/")` reduces to the empty string, so the
normalizer does emit an empty path: the output is `https://x.com`, whose
parsed path is empty. -/
theorem claim_C4_counterexample :
    (urlparse (urldefrag "https://x.com//".toList)).path = ['/', '/'] ∧
    normalizePath ((urlparse (urldefrag "https://x.com//".toList)).path) = [] ∧
    normalize_core "https://x.com//".toList = some "https://x.com".toList ∧
    (urlsplit "https://x.com".toList).path = [] := by
  refine ⟨by decide, by decide, by decide, by decide⟩

/-- C4 (amended): `normalize` defaults an empty path to `/` and strips
trailing slashes from non-root paths, with
`normalize("https://x.com") = "https://x.com/"` and
`normalize("https://x.com/a/") = "https://x.com/a"`; the resulting path is
nonempty for every input whose parsed path is empty, the root `/`, or
contains some non-slash character — but a parsed path of two or more
slashes only is stripped to the empty string. -/
theorem claim_C4_path_normalization :
    (∀ join, normalize_url join "https://x.com".toList none = some "https://x.com/".toList) ∧
    (∀ join, normalize_url join "https://x.com/a/".toList none = some "https://x.com/a".toList) ∧
    (∀ u : Str,
      ((urlparse (urldefrag u)).path = [] ∨ (urlparse (urldefrag u)).path = ['/'] ∨
        ∃ c ∈ (urlparse (urldefrag u)).path, c ≠ '/') →
      normalizePath ((urlparse (urldefrag u)).path) ≠ []) := by
  have hnone : ∀ (join : Str → Str → Str) (u : Str),
      normalize_url join u none = normalize_core u := fun _ _ => rfl
  refine ⟨fun join => by rw [hnone]; decide, fun join => by rw [hnone]; decide, ?_⟩
  intro u h
  set p := (urlparse (urldefrag u)).path with hp
  rcases h with h0 | h1 | ⟨c, hc, hcne⟩
  · rw [h0]; decide
  · rw [h1]; decide
  · have hpne : p ≠ [] := by
      intro hx; rw [hx] at hc; cases hc
    have hstep : normalizePath p = if p ≠ ['/'] then rstripSlash p else p := by
      unfold normalizePath
      rw [if_neg hpne]
    rw [hstep]
    by_cases hroot : p = ['/']
    · rw [if_neg (not_not_intro hroot), hroot]
      decide
    · rw [if_pos hroot]
      intro hnil
      exact hcne (rstripSlash_eq_nil_iff.mp hnil c hc)

/-- Witness for C4's universally quantified part at a concrete input. -/
theorem claim_C4_path_normalization_witness :
    normalizePath ((urlparse (urldefrag "https://x.com/a/".toList)).path) ≠ [] :=
  claim_C4_path_normalization.2.2 "https://x.com/a/".toList (by decide)

/-- C5: loading back what was saved returns the same document collection,
field for field, for both the compressed (`.gz` suffix) and uncompressed
encodings.  JSON serialization and gzip are external capabilities (spec
section 1); the hypotheses state that they invert each other on this
collection, and the theorem shows the save/load suffix dispatch preserves
that inversion end-to-end. -/
theorem claim_C5_roundtrip (enc : List PageDoc → Str) (dec : Str → Option (List PageDoc))
    (gzipC : Str → Str) (gunzipC : Str → Option Str) (path : Str) (docs : List PageDoc)
    (_hne : docs ≠ []) (hdec : dec (enc docs) = some docs)
    (hgz : gunzipC (gzipC (enc docs)) = some (enc docs)) :
    load_scraped_data dec gunzipC path (save_scraped_pages enc gzipC path docs) = docs := by
  unfold load_scraped_data save_scraped_pages
  by_cases hsuf : suffB ".gz".toList path = true
  · simp only [hsuf, if_true, hgz, hdec]
  · have hsuf' : suffB ".gz".toList path = false := Bool.eq_false_iff.mpr hsuf
    simp only [hsuf', Bool.false_eq_true, if_false, hdec]

/-- Concrete document collection and serialization capabilities used to
witness C5. -/
def docs0 : List PageDoc := [⟨"https://x.com/".toList, "hello".toList, 5, "t0".toList,
  "https://x.com".toList⟩]

def enc0 : List PageDoc → Str := fun _ => "payload".toList

def dec0 : Str → Option (List PageDoc) := fun _ => some docs0

def gz0 : Str → Str := fun b => 'z' :: b

def gunz0 : Str → Option Str := fun b => some (b.drop 1)

/-- Witness for C5 at a concrete collection, for a compressed path. -/
theorem claim_C5_roundtrip_witness :
    docs0 ≠ [] ∧
      load_scraped_data dec0 gunz0 "out.json.gz".toList
        (save_scraped_pages enc0 gz0 "out.json.gz".toList docs0) = docs0 :=
  ⟨by decide,
   claim_C5_roundtrip enc0 dec0 gz0 gunz0 "out.json.gz".toList docs0 (by decide) rfl rfl⟩

/-! ### Lemmas about link extraction and the found-links loop -/

theorem mem_addSet_self (x : Str) (l : List Str) : x ∈ addSet x l := by
  unfold addSet
  by_cases h : x ∈ l
  · rw [if_pos h]; exact h
  · rw [if_neg h]; exact List.mem_append_right _ (List.mem_singleton.mpr rfl)

theorem mem_addSet_of_mem {y : Str} (x : Str) {l : List Str} (h : y ∈ l) : y ∈ addSet x l := by
  unfold addSet
  by_cases hx : x ∈ l
  · rw [if_pos hx]; exact h
  · rw [if_neg hx]; exact List.mem_append_left _ h

theorem mem_addSet {x y : Str} {l : List Str} (h : y ∈ addSet x l) : y = x ∨ y ∈ l := by
  unfold addSet at h
  by_cases hx : x ∈ l
  · rw [if_pos hx] at h; exact Or.inr h
  · rw [if_neg hx] at h
    rcases List.mem_append.mp h with h1 | h2
    · exact Or.inr h1
    · exact Or.inl (List.mem_singleton.mp h2)

/-- Everything `extractStep` adds is a `normalize_url` output. -/
theorem extractStep_mem {join : Str → Str → Str} {base : Str} {links : List Str} {raw x : Str} :
    x ∈ extractStep join base links raw → x ∈ links ∨ ∃ r, normalize_core r = some x := by
  intro h
  unfold extractStep at h
  by_cases h1 : raw = []
  · rw [if_pos h1] at h; exact Or.inl h
  · rw [if_neg h1] at h
    by_cases h2 : (urlsplit raw).scheme ≠ [] ∧
        (urlsplit raw).scheme.map Char.toLower ∈ IGNORED_SCHEMES
    · rw [if_pos h2] at h; exact Or.inl h
    · rw [if_neg h2] at h
      cases hn : normalize_url join raw (some base) with
      | none => rw [hn] at h; exact Or.inl h
      | some n =>
        rw [hn] at h
        rcases mem_addSet h with h3 | h4
        · rw [← h3] at hn
          simp only [normalize_url] at hn
          exact Or.inr ⟨_, hn⟩
        · exact Or.inl h4

/-- Every extracted link is a `normalize_url` output. -/
theorem extract_links_norm {join : Str → Str → Str} {soup : Soup} {cur : Str} :
    ∀ x ∈ extract_links_from_soup join soup cur, ∃ r, normalize_core r = some x := by
  unfold extract_links_from_soup
  have haux : ∀ (cands : List Str) (base : Str) (acc : List Str),
      (∀ x ∈ acc, ∃ r, normalize_core r = some x) →
      ∀ x ∈ cands.foldl (extractStep join base) acc, ∃ r, normalize_core r = some x := by
    intro cands
    induction cands with
    | nil => intro base acc hacc x hx; exact hacc x hx
    | cons raw rest ih =>
      intro base acc hacc x hx
      refine ih base (extractStep join base acc raw) ?_ x hx
      intro y hy
      rcases extractStep_mem hy with h1 | h2
      · exact hacc y h1
      · exact h2
  intro x hx
  exact haux soup.candidates _ [] (by intro y hy; cases hy) x hx

theorem processLinks_internal_mono {cfg : CrawlConfig} {visited : List Str} :
    ∀ (ls : List Str) (acc : LinkAcc) {x : Str}, x ∈ acc.internal →
      x ∈ (processLinks cfg visited ls acc).internal := by
  intro ls
  induction ls with
  | nil => intro acc x h; exact h
  | cons link rest ih =>
    intro acc x h
    simp only [processLinks]
    by_cases h1 : (urlsplit link).netloc = base_netloc cfg
    · rw [if_pos h1]
      exact ih _ (mem_addSet_of_mem link h)
    · rw [if_neg h1]
      by_cases h2 : isYoutubeNetloc (urlsplit link).netloc = true
      · rw [if_pos h2]; exact ih _ h
      · rw [if_neg h2]; exact ih _ h

theorem processLinks_internal_sub {cfg : CrawlConfig} {visited : List Str} :
    ∀ (ls : List Str) (acc : LinkAcc) {x : Str},
      x ∈ (processLinks cfg visited ls acc).internal →
      x ∈ acc.internal ∨ (x ∈ ls ∧ (urlsplit x).netloc = base_netloc cfg) := by
  intro ls
  induction ls with
  | nil => intro acc x h; exact Or.inl h
  | cons link rest ih =>
    intro acc x h
    simp only [processLinks] at h
    by_cases h1 : (urlsplit link).netloc = base_netloc cfg
    · rw [if_pos h1] at h
      rcases ih _ h with h2 | ⟨h3, h4⟩
      · rcases mem_addSet h2 with h5 | h6
        · subst h5
          exact Or.inr ⟨List.mem_cons_self _ _, h1⟩
        · exact Or.inl h6
      · exact Or.inr ⟨List.mem_cons_of_mem _ h3, h4⟩
    · rw [if_neg h1] at h
      by_cases h2 : isYoutubeNetloc (urlsplit link).netloc = true
      · rw [if_pos h2] at h
        rcases ih _ h with h3 | ⟨h4, h5⟩
        · exact Or.inl h3
        · exact Or.inr ⟨List.mem_cons_of_mem _ h4, h5⟩
      · rw [if_neg h2] at h
        rcases ih _ h with h3 | ⟨h4, h5⟩
        · exact Or.inl h3
        · exact Or.inr ⟨List.mem_cons_of_mem _ h4, h5⟩

theorem processLinks_queue_mono {cfg : CrawlConfig} {visited : List Str} :
    ∀ (ls : List Str) (acc : LinkAcc) {q : Option Str}, q ∈ acc.queue →
      q ∈ (processLinks cfg visited ls acc).queue := by
  intro ls
  induction ls with
  | nil => intro acc q h; exact h
  | cons link rest ih =>
    intro acc q h
    simp only [processLinks]
    by_cases h1 : (urlsplit link).netloc = base_netloc cfg
    · rw [if_pos h1]
      by_cases h2 : link ∉ visited ∧ some link ∉ acc.queue
      · rw [if_pos h2]
        exact ih _ (List.mem_append_left _ h)
      · rw [if_neg h2]; exact ih _ h
    · rw [if_neg h1]
      by_cases h2 : isYoutubeNetloc (urlsplit link).netloc = true
      · rw [if_pos h2]; exact ih _ h
      · rw [if_neg h2]; exact ih _ h

/-- Every queue entry after the found-links loop was already queued, or is
a freshly discovered same-domain link that is unvisited and recorded in
the internal-link set. -/
theorem processLinks_queue_sub {cfg : CrawlConfig} {visited : List Str} :
    ∀ (ls : List Str) (acc : LinkAcc) {q : Option Str},
      q ∈ (processLinks cfg visited ls acc).queue →
      q ∈ acc.queue ∨ ∃ x, q = some x ∧ x ∈ ls ∧ (urlsplit x).netloc = base_netloc cfg ∧
        x ∉ visited ∧ x ∈ (processLinks cfg visited ls acc).internal := by
  intro ls
  induction ls with
  | nil => intro acc q h; exact Or.inl h
  | cons link rest ih =>
    intro acc q h
    simp only [processLinks] at h ⊢
    by_cases h1 : (urlsplit link).netloc = base_netloc cfg
    · rw [if_pos h1] at h ⊢
      by_cases h2 : link ∉ visited ∧ some link ∉ acc.queue
      · rw [if_pos h2] at h ⊢
        rcases ih _ h with h3 | ⟨x, hx1, hx2, hx3, hx4, hx5⟩
        · rcases List.mem_append.mp h3 with h4 | h5
          · exact Or.inl h4
          · refine Or.inr ⟨link, List.mem_singleton.mp h5, List.mem_cons_self _ _, h1, h2.1, ?_⟩
            exact processLinks_internal_mono _ _ (mem_addSet_self link acc.internal)
        · exact Or.inr ⟨x, hx1, List.mem_cons_of_mem _ hx2, hx3, hx4, hx5⟩
      · rw [if_neg h2] at h ⊢
        rcases ih _ h with h3 | ⟨x, hx1, hx2, hx3, hx4, hx5⟩
        · exact Or.inl h3
        · exact Or.inr ⟨x, hx1, List.mem_cons_of_mem _ hx2, hx3, hx4, hx5⟩
    · rw [if_neg h1] at h ⊢
      by_cases h2 : isYoutubeNetloc (urlsplit link).netloc = true
      · rw [if_pos h2] at h ⊢
        rcases ih _ h with h3 | ⟨x, hx1, hx2, hx3, hx4, hx5⟩
        · exact Or.inl h3
        · exact Or.inr ⟨x, hx1, List.mem_cons_of_mem _ hx2, hx3, hx4, hx5⟩
      · rw [if_neg h2] at h ⊢
        rcases ih _ h with h3 | ⟨x, hx1, hx2, hx3, hx4, hx5⟩
        · exact Or.inl h3
        · exact Or.inr ⟨x, hx1, List.mem_cons_of_mem _ hx2, hx3, hx4, hx5⟩

/-! ### Claims about the crawl loop -/

theorem crawlLoop_docInv {cfg : CrawlConfig} {mp : Option Nat} (fuel : Nat) (st : CrawlState)
    (h : (st.pages.map PageDoc.url).Nodup ∧ ∀ d ∈ st.pages, d.url ∈ st.visited) :
    ((crawlLoop cfg mp fuel st).pages.map PageDoc.url).Nodup ∧
      ∀ d ∈ (crawlLoop cfg mp fuel st).pages, d.url ∈ (crawlLoop cfg mp fuel st).visited := by
  refine crawlLoop_inv
    (fun s => (s.pages.map PageDoc.url).Nodup ∧ ∀ d ∈ s.pages, d.url ∈ s.visited)
    ?_ ?_ fuel st h
  · intro st cur rest _ _ hx; exact hx
  · intro st u rest _ _ _ hu2 hx
    obtain ⟨hnd, hmem⟩ := hx
    unfold crawlBody
    cases hf : cfg.fetch u with
    | none => exact ⟨hnd, fun d hd => List.mem_cons_of_mem u (hmem d hd)⟩
    | some soup =>
      refine ⟨?_, ?_⟩
      · rw [List.map_append, List.nodup_append]
        refine ⟨hnd, List.nodup_singleton _, ?_⟩
        intro a ha hb
        simp only [List.map_cons, List.map_nil, List.mem_singleton] at hb
        rcases List.mem_map.mp ha with ⟨d, hd, hda⟩
        apply hu2
        have : d.url ∈ st.visited := hmem d hd
        rw [hda, hb] at this
        exact this
      · intro d hd
        rcases List.mem_append.mp hd with h1 | h2
        · exact List.mem_cons_of_mem u (hmem d h1)
        · have : d.url = u := by
            simp only [List.mem_singleton] at h2
            rw [h2]
          rw [this]
          exact List.mem_cons_self u _

/-- C1: across any crawl (any configuration, cap, seed and fuel), the urls
of the stored `PageDocument`s are pairwise distinct — no URL is fetched or
stored twice, because a URL is marked visited before processing and
visited URLs are skipped at dequeue and never re-enqueued. -/
theorem claim_C1_no_duplicate_fetch (cfg : CrawlConfig) (mp : Option Nat) (start : Str)
    (fuel : Nat) :
    ((crawlLoop cfg mp fuel (initState start)).pages.map PageDoc.url).Nodup :=
  (crawlLoop_docInv fuel (initState start)
    ⟨List.nodup_nil, by intro d hd; cases hd⟩).1

/-- C6: every member of the internal-link set, at every point of the
crawl, is the output of the URL normalizer and has netloc equal to the
configured base netloc — external and video links never enter it. -/
theorem claim_C6_internal_links_domain (cfg : CrawlConfig) (mp : Option Nat) (start : Str)
    (fuel : Nat) :
    ∀ x ∈ (crawlLoop cfg mp fuel (initState start)).internal,
      (∃ r, normalize_core r = some x) ∧ (urlsplit x).netloc = base_netloc cfg := by
  refine crawlLoop_inv
    (fun s => ∀ x ∈ s.internal,
      (∃ r, normalize_core r = some x) ∧ (urlsplit x).netloc = base_netloc cfg)
    ?_ ?_ fuel (initState start) ?_
  · intro st cur rest _ _ hx; exact hx
  · intro st u rest _ _ _ _ hx
    unfold crawlBody
    cases hf : cfg.fetch u with
    | none => exact hx
    | some soup =>
      intro x hmem
      rcases processLinks_internal_sub _ _ hmem with h1 | ⟨h2, h3⟩
      · exact hx x h1
      · exact ⟨extract_links_norm x h2, h3⟩
  · intro x hx; cases hx

/-- Stored as a set-invariant: every visited URL is in the internal-link
set or is the normalized seed (`sd`), and likewise for queued URLs. -/
theorem crawlLoop_seedInv {cfg : CrawlConfig} {mp : Option Nat} (sd : Option Str) (fuel : Nat)
    (st : CrawlState)
    (h : (∀ x ∈ st.visited, x ∈ st.internal ∨ sd = some x) ∧
         (∀ x : Str, some x ∈ st.queue → x ∈ st.internal ∨ sd = some x)) :
    (∀ x ∈ (crawlLoop cfg mp fuel st).visited,
      x ∈ (crawlLoop cfg mp fuel st).internal ∨ sd = some x) ∧
    (∀ x : Str, some x ∈ (crawlLoop cfg mp fuel st).queue →
      x ∈ (crawlLoop cfg mp fuel st).internal ∨ sd = some x) := by
  refine crawlLoop_inv
    (fun s => (∀ x ∈ s.visited, x ∈ s.internal ∨ sd = some x) ∧
      (∀ x : Str, some x ∈ s.queue → x ∈ s.internal ∨ sd = some x))
    ?_ ?_ fuel st h
  · intro st cur rest hq _ hx
    refine ⟨hx.1, ?_⟩
    intro x hmem
    exact hx.2 x (by rw [hq]; exact List.mem_cons_of_mem _ hmem)
  · intro st u rest hq _ _ _ hx
    obtain ⟨hvis, hque⟩ := hx
    have hu : u ∈ st.internal ∨ sd = some u :=
      hque u (by rw [hq]; exact List.mem_cons_self _ _)
    unfold crawlBody
    cases hf : cfg.fetch u with
    | none =>
      refine ⟨?_, ?_⟩
      · intro x hmem
        rcases List.mem_cons.mp hmem with h1 | h2
        · rw [h1]; exact hu
        · exact hvis x h2
      · intro x hmem
        exact hque x (by rw [hq]; exact List.mem_cons_of_mem _ hmem)
    | some soup =>
      refine ⟨?_, ?_⟩
      · intro x hmem
        rcases List.mem_cons.mp hmem with h1 | h2
        · rw [h1]
          rcases hu with h3 | h4
          · exact Or.inl (processLinks_internal_mono _ _ h3)
          · exact Or.inr h4
        · rcases hvis x h2 with h3 | h4
          · exact Or.inl (processLinks_internal_mono _ _ h3)
          · exact Or.inr h4
      · intro x hmem
        rcases processLinks_queue_sub _ _ hmem with h1 | ⟨y, hy1, _, _, _, hy5⟩
        · have : some x ∈ st.queue := by rw [hq]; exact List.mem_cons_of_mem _ h1
          rcases hque x this with h3 | h4
          · exact Or.inl (processLinks_internal_mono _ _ h3)
          · exact Or.inr h4
        · have hxy : x = y := by
            have := hy1
            simp only [Option.some.injEq] at this
            exact this
          rw [hxy]
          exact Or.inl hy5

/-- C7 (amended): the internal-link set need not contain the seed, but it
does contain every other visited URL: at any point of the crawl, each
visited URL is in the internal-link set or is the normalized seed. -/
theorem claim_C7_visited_in_internal (cfg : CrawlConfig) (mp : Option Nat) (start : Str)
    (fuel : Nat) :
    ∀ x ∈ (crawlLoop cfg mp fuel (initState start)).visited,
      x ∈ (crawlLoop cfg mp fuel (initState start)).internal ∨
        normalize_core start = some x := by
  have h := @crawlLoop_seedInv cfg mp (normalize_core start) fuel
    (initState start) ?_
  · exact h.1
  · refine ⟨?_, ?_⟩
    · intro x hx; cases hx
    · intro x hmem
      rcases List.mem_cons.mp hmem with h1 | h2
      · exact Or.inr h1.symm
      · cases h2

/-- A small concrete web over base `https://x.com`: the normalized seed
page links to one internal page and one YouTube video whose transcript is
the empty string; the internal page's fetch fails. -/
def soupA : Soup :=
  ⟨none, ["https://x.com/a".toList, "https://youtube.com/watch?v=abc".toList], [],
   "HELLO".toList⟩

def webCfg : CrawlConfig :=
  ⟨fun _ r => r,
   fun u => if u = "https://x.com/".toList then some soupA else none,
   fun _ => some [],
   fun _ => "t0".toList,
   "https://x.com".toList⟩

/-- Witness for C6 at the concrete web: the discovered internal link is a
normalizer output on the base host. -/
theorem claim_C6_internal_links_domain_witness :
    "https://x.com/a".toList ∈
        (crawlLoop webCfg none 5 (initState "https://x.com".toList)).internal ∧
      (∃ r, normalize_core r = some "https://x.com/a".toList) ∧
      (urlsplit "https://x.com/a".toList).netloc = base_netloc webCfg :=
  ⟨by decide,
   claim_C6_internal_links_domain webCfg none "https://x.com".toList 5
     "https://x.com/a".toList (by decide)⟩

/-- C7 (counterexample): with a page cap of 1 the crawl is truncated after
the seed; the seed is visited but never enters the internal-link set, so
the internal-link set is not a superset of the visited set. -/
theorem claim_C7_counterexample :
    "https://x.com/".toList ∈
        (crawlLoop webCfg (some 1) 5 (initState "https://x.com".toList)).visited ∧
      "https://x.com/".toList ∉
        (crawlLoop webCfg (some 1) 5 (initState "https://x.com".toList)).internal := by
  refine ⟨by decide, by decide⟩

/-- Witness for C7's amended statement at the concrete web. -/
theorem claim_C7_visited_in_internal_witness :
    "https://x.com/".toList ∈
        (crawlLoop webCfg (some 1) 5 (initState "https://x.com".toList)).visited ∧
      ("https://x.com/".toList ∈
          (crawlLoop webCfg (some 1) 5 (initState "https://x.com".toList)).internal ∨
        normalize_core "https://x.com".toList = some "https://x.com/".toList) :=
  ⟨by decide,
   claim_C7_visited_in_internal webCfg (some 1) "https://x.com".toList 5
     "https://x.com/".toList (by decide)⟩

/-- Once a URL is visited and absent from the stored documents, it never
acquires a document later. -/
theorem crawlLoop_no_new_doc {cfg : CrawlConfig} {mp : Option Nat} {u : Str} (fuel : Nat)
    (st : CrawlState) (h1 : u ∈ st.visited) (h2 : ∀ d ∈ st.pages, d.url ≠ u) :
    ∀ d ∈ (crawlLoop cfg mp fuel st).pages, d.url ≠ u := by
  have h := @crawlLoop_inv cfg mp
    (fun s => u ∈ s.visited ∧ ∀ d ∈ s.pages, d.url ≠ u) ?_ ?_ fuel st ⟨h1, h2⟩
  · exact h.2
  · intro st cur rest _ _ hx; exact hx
  · intro st v rest _ _ _ hv2 hx
    obtain ⟨hvst, hpg⟩ := hx
    unfold crawlBody
    cases hf : cfg.fetch v with
    | none => exact ⟨List.mem_cons_of_mem v hvst, hpg⟩
    | some soup =>
      refine ⟨List.mem_cons_of_mem v hvst, ?_⟩
      intro d hd
      rcases List.mem_append.mp hd with hda | hdb
      · exact hpg d hda
      · have : d.url = v := by
          simp only [List.mem_singleton] at hdb
          rw [hdb]
        rw [this]
        intro hvu
        rw [hvu] at hv2
        exact hv2 hvst

/-- C9: when the fetch of a dequeued URL fails, no document is produced
for it, no links are discovered from it (queue and internal-link set gain
nothing), the loop continues with the next queued URL, and the URL stays
in the visited set forever, so it is never retried and never stored. -/
theorem claim_C9_fetch_failure (cfg : CrawlConfig) (mp : Option Nat) (fuel : Nat)
    (st : CrawlState) (u : Str) (rest : List (Option Str))
    (hq : st.queue = some u :: rest) (hu1 : u ≠ []) (hu2 : u ∉ st.visited)
    (hc : capHit mp st.pagesCrawled = false) (hf : cfg.fetch u = none)
    (hnd : ∀ d ∈ st.pages, d.url ≠ u) :
    crawlLoop cfg mp (fuel + 1) st =
      crawlLoop cfg mp fuel
        ⟨rest, u :: st.visited, st.internal, st.pages, st.pagesCrawled + 1⟩ ∧
    (∀ f2, u ∈ (crawlLoop cfg mp f2
        ⟨rest, u :: st.visited, st.internal, st.pages, st.pagesCrawled + 1⟩).visited) ∧
    (∀ f2, ∀ d ∈ (crawlLoop cfg mp f2
        ⟨rest, u :: st.visited, st.internal, st.pages, st.pagesCrawled + 1⟩).pages,
      d.url ≠ u) := by
  have hbody : crawlBody cfg u rest st =
      ⟨rest, u :: st.visited, st.internal, st.pages, st.pagesCrawled + 1⟩ := by
    unfold crawlBody
    rw [hf]
  refine ⟨?_, ?_, ?_⟩
  · rw [crawlLoop_succ_process hq hc (not_or.mpr ⟨hu1, hu2⟩), hbody]
  · intro f2
    exact crawlLoop_visited_mono f2 _ (List.mem_cons_self u st.visited)
  · intro f2
    exact crawlLoop_no_new_doc f2 _ (List.mem_cons_self u st.visited) hnd

/-- A concrete state whose head URL's fetch fails under `webCfg`. -/
def st9 : CrawlState := ⟨[some "https://x.com/a".toList], [], [], [], 0⟩

/-- Witness for C9 at the concrete web. -/
theorem claim_C9_fetch_failure_witness :
    crawlLoop webCfg none 3 st9 =
      crawlLoop webCfg none 2
        ⟨[], ["https://x.com/a".toList], [], [], 1⟩ :=
  (claim_C9_fetch_failure webCfg none 2 st9 "https://x.com/a".toList [] rfl (by decide)
    (by decide) rfl (by decide) (by intro d hd; cases hd)).1

/-- The transcript accumulator of the found-links loop in isolation: each
YouTube-classified link overwrites the accumulator with its own enricher
result (lines 215-219); same-domain and other external links leave it
unchanged. -/
def ytResult (cfg : CrawlConfig) : List Str → Option Str → Option Str
  | [], y => y
  | link :: rest, y =>
    let nl := (urlsplit link).netloc
    if nl = base_netloc cfg then ytResult cfg rest y
    else if isYoutubeNetloc nl then ytResult cfg rest (cfg.transcript link)
    else ytResult cfg rest y

theorem processLinks_yt {cfg : CrawlConfig} {visited : List Str} :
    ∀ (ls : List Str) (acc : LinkAcc),
      (processLinks cfg visited ls acc).yt = ytResult cfg ls acc.yt := by
  intro ls
  induction ls with
  | nil => intro acc; rfl
  | cons link rest ih =>
    intro acc
    simp only [processLinks, ytResult]
    by_cases h1 : (urlsplit link).netloc = base_netloc cfg
    · rw [if_pos h1, if_pos h1, ih]
    · rw [if_neg h1, if_neg h1]
      by_cases h2 : isYoutubeNetloc (urlsplit link).netloc = true
      · rw [if_pos h2, if_pos h2, ih]
      · rw [if_neg h2, if_neg h2, ih]

/-- C8 (amended): for a successfully fetched page the enricher is invoked
synchronously for each external-video link, each invocation overwriting
the previous result; the document's text is the last invocation's
transcript when that transcript is present and non-empty, and otherwise
(absent, or the empty — falsy — transcript, or no video link at all)
falls back to the page's own visible text; in every case the crawl simply
continues with the updated state. -/
theorem claim_C8_video_enrichment (cfg : CrawlConfig) (mp : Option Nat) (fuel : Nat)
    (st : CrawlState) (u : Str) (rest : List (Option Str)) (soup : Soup)
    (hq : st.queue = some u :: rest) (hu1 : u ≠ []) (hu2 : u ∉ st.visited)
    (hc : capHit mp st.pagesCrawled = false) (hf : cfg.fetch u = some soup) :
    ∃ text : Str,
      crawlLoop cfg mp (fuel + 1) st =
        crawlLoop cfg mp fuel
          ⟨(processLinks cfg (u :: st.visited) (extract_links_from_soup cfg.join soup u)
              ⟨rest, st.internal, none⟩).queue,
           u :: st.visited,
           (processLinks cfg (u :: st.visited) (extract_links_from_soup cfg.join soup u)
              ⟨rest, st.internal, none⟩).internal,
           st.pages ++ [⟨u, text, text.length, cfg.clock (st.pagesCrawled + 1),
             cfg.baseDomain⟩],
           st.pagesCrawled + 1⟩ ∧
      (∀ t, ytResult cfg (extract_links_from_soup cfg.join soup u) none = some t → t ≠ [] →
        text = t) ∧
      (ytResult cfg (extract_links_from_soup cfg.join soup u) none = none →
        text = soup.visibleText) ∧
      (ytResult cfg (extract_links_from_soup cfg.join soup u) none = some [] →
        text = soup.visibleText) := by
  set found := extract_links_from_soup cfg.join soup u with hfound
  set acc := processLinks cfg (u :: st.visited) found ⟨rest, st.internal, none⟩ with hacc
  set text :=
    (match acc.yt with
     | some t => if t ≠ [] then t else soup.visibleText
     | none => soup.visibleText : Str) with htext
  have hyt : acc.yt = ytResult cfg found none := by
    rw [hacc, processLinks_yt]
  refine ⟨text, ?_, ?_, ?_, ?_⟩
  · rw [crawlLoop_succ_process hq hc (not_or.mpr ⟨hu1, hu2⟩)]
    have hbody : crawlBody cfg u rest st =
        ⟨acc.queue, u :: st.visited, acc.internal,
         st.pages ++ [⟨u, text, text.length, cfg.clock (st.pagesCrawled + 1),
           cfg.baseDomain⟩],
         st.pagesCrawled + 1⟩ := by
      unfold crawlBody
      rw [hf]
    rw [hbody]
  · intro t ht hne
    rw [htext, hyt, ht]
    show (if t ≠ [] then t else soup.visibleText) = t
    rw [if_pos hne]
  · intro h0
    rw [htext, hyt, h0]
  · intro h0
    rw [htext, hyt, h0]
    show (if ([] : Str) ≠ [] then ([] : Str) else soup.visibleText) = soup.visibleText
    rw [if_neg (not_not_intro rfl)]

/-- C8 (counterexample): a page whose single external-video link yields a
transcript — the empty string — does not get its text replaced: Python
truthiness sends the empty transcript to the visible-text fallback, so
"whenever the enricher yields a transcript it replaces the text" fails. -/
theorem claim_C8_counterexample :
    "https://youtube.com/watch?v=abc".toList ∈
        extract_links_from_soup webCfg.join soupA "https://x.com/".toList ∧
      webCfg.transcript "https://youtube.com/watch?v=abc".toList = some [] ∧
      (crawlLoop webCfg none 5 (initState "https://x.com".toList)).pages =
        [⟨"https://x.com/".toList, "HELLO".toList, 5, "t0".toList,
          "https://x.com".toList⟩] ∧
      "HELLO".toList ≠ ([] : Str) := by
  refine ⟨by decide, by decide, by decide, by decide⟩

/-- Witness for C8's amended statement at the concrete web. -/
theorem claim_C8_video_enrichment_witness :
    ∃ text : Str,
      crawlLoop webCfg none 4 (initState "https://x.com".toList) =
        crawlLoop webCfg none 3
          ⟨[some "https://x.com/a".toList], ["https://x.com/".toList],
           ["https://x.com/a".toList],
           [⟨"https://x.com/".toList, text, text.length, "t0".toList,
             "https://x.com".toList⟩],
           1⟩ ∧
      (∀ t, ytResult webCfg (extract_links_from_soup webCfg.join soupA
          "https://x.com/".toList) none = some t → t ≠ [] → text = t) ∧
      (ytResult webCfg (extract_links_from_soup webCfg.join soupA
          "https://x.com/".toList) none = none → text = soupA.visibleText) ∧
      (ytResult webCfg (extract_links_from_soup webCfg.join soupA
          "https://x.com/".toList) none = some [] → text = soupA.visibleText) :=
  claim_C8_video_enrichment webCfg none 3 (initState "https://x.com".toList)
    "https://x.com/".toList [] soupA (by decide) (by decide) (by decide) rfl (by decide)

/-! ### Termination of the crawl (C2) -/

theorem crawlBody_visited (cfg : CrawlConfig) (u : Str) (rest : List (Option Str))
    (st : CrawlState) : (crawlBody cfg u rest st).visited = u :: st.visited := by
  unfold crawlBody
  cases cfg.fetch u with
  | none => rfl
  | some soup => rfl

/-- Marking a fresh reachable URL visited strictly shrinks the unvisited
part of the finite universe `U`. -/
theorem card_sdiff_cons_lt {U vis : List Str} {u : Str} (huU : u ∈ U) (huv : u ∉ vis) :
    (U.toFinset \ (u :: vis).toFinset).card < (U.toFinset \ vis.toFinset).card := by
  apply Finset.card_lt_card
  rw [List.toFinset_cons]
  constructor
  · exact Finset.sdiff_subset_sdiff (le_refl _) (Finset.subset_insert u vis.toFinset)
  · intro hsub
    have huB : u ∈ U.toFinset \ vis.toFinset := by
      rw [Finset.mem_sdiff, List.mem_toFinset, List.mem_toFinset]
      exact ⟨huU, huv⟩
    have huA := hsub huB
    rw [Finset.mem_sdiff] at huA
    exact huA.2 (Finset.mem_insert_self u _)

/-- Inner induction for termination: exhaust the current queue, deferring
to the given continuation whenever the unvisited universe shrinks. -/
theorem crawl_term_queue (cfg : CrawlConfig) (U : List Str)
    (hclosed : ∀ (u : Str) (soup : Soup) (x : Str), cfg.fetch u = some soup →
      x ∈ extract_links_from_soup cfg.join soup u →
      (urlsplit x).netloc = base_netloc cfg → x ∈ U) :
    ∀ (q : Nat) (st : CrawlState), st.queue.length ≤ q →
      (∀ x : Str, some x ∈ st.queue → x ∈ U) →
      (∀ st2 : CrawlState, (∀ x : Str, some x ∈ st2.queue → x ∈ U) →
        (U.toFinset \ st2.visited.toFinset).card <
          (U.toFinset \ st.visited.toFinset).card →
        ∃ fuel, (crawlLoop cfg none fuel st2).queue = []) →
      ∃ fuel, (crawlLoop cfg none fuel st).queue = [] := by
  intro q
  induction q with
  | zero =>
    intro st hlen _ _
    have hnil : st.queue = [] := List.eq_nil_of_length_eq_zero (Nat.le_zero.mp hlen)
    exact ⟨0, hnil⟩
  | succ q ih =>
    intro st hlen hQ hsm
    cases hq : st.queue with
    | nil => exact ⟨0, hq⟩
    | cons cur rest =>
      have hc : capHit none st.pagesCrawled = false := rfl
      have hlenr : rest.length ≤ q := by
        rw [hq] at hlen
        simpa using hlen
      cases cur with
      | none =>
        obtain ⟨f, hf⟩ := ih { st with queue := rest } hlenr
          (fun x hx => hQ x (by rw [hq]; exact List.mem_cons_of_mem _ hx))
          (fun st2 hQ2 hlt => hsm st2 hQ2 hlt)
        exact ⟨f + 1, by rw [crawlLoop_succ_none hq hc]; exact hf⟩
      | some u =>
        by_cases hu : u = [] ∨ u ∈ st.visited
        · obtain ⟨f, hf⟩ := ih { st with queue := rest } hlenr
            (fun x hx => hQ x (by rw [hq]; exact List.mem_cons_of_mem _ hx))
            (fun st2 hQ2 hlt => hsm st2 hQ2 hlt)
          exact ⟨f + 1, by rw [crawlLoop_succ_skip hq hc hu]; exact hf⟩
        · push_neg at hu
          have huU : u ∈ U := hQ u (by rw [hq]; exact List.mem_cons_self _ _)
          have hQ' : ∀ x : Str, some x ∈ (crawlBody cfg u rest st).queue → x ∈ U := by
            intro x hx
            unfold crawlBody at hx
            cases hf : cfg.fetch u with
            | none =>
              rw [hf] at hx
              exact hQ x (by rw [hq]; exact List.mem_cons_of_mem _ hx)
            | some soup =>
              rw [hf] at hx
              rcases processLinks_queue_sub _ _ hx with h1 | ⟨y, hy1, hy2, hy3, _, _⟩
              · exact hQ x (by rw [hq]; exact List.mem_cons_of_mem _ h1)
              · have hxy : x = y := Option.some.inj hy1
                rw [hxy]
                exact hclosed u soup y hf hy2 hy3
          have hcard : (U.toFinset \ (crawlBody cfg u rest st).visited.toFinset).card <
              (U.toFinset \ st.visited.toFinset).card := by
            rw [crawlBody_visited]
            exact card_sdiff_cons_lt huU hu.2
          obtain ⟨f, hf⟩ := hsm (crawlBody cfg u rest st) hQ' hcard
          exact ⟨f + 1, by rw [crawlLoop_succ_process hq hc (not_or.mpr hu)]; exact hf⟩

/-- Outer induction for termination, on the size of the unvisited part of
the universe. -/
theorem crawl_term_outer (cfg : CrawlConfig) (U : List Str)
    (hclosed : ∀ (u : Str) (soup : Soup) (x : Str), cfg.fetch u = some soup →
      x ∈ extract_links_from_soup cfg.join soup u →
      (urlsplit x).netloc = base_netloc cfg → x ∈ U) :
    ∀ (n : Nat) (st : CrawlState),
      (U.toFinset \ st.visited.toFinset).card ≤ n →
      (∀ x : Str, some x ∈ st.queue → x ∈ U) →
      ∃ fuel, (crawlLoop cfg none fuel st).queue = [] := by
  intro n
  induction n with
  | zero =>
    intro st hc hQ
    refine crawl_term_queue cfg U hclosed st.queue.length st (le_refl _) hQ ?_
    intro st2 _ hlt
    exact absurd hlt (by omega)
  | succ n ih =>
    intro st hc hQ
    refine crawl_term_queue cfg U hclosed st.queue.length st (le_refl _) hQ ?_
    intro st2 hQ2 hlt
    exact ih st2 (by omega) hQ2

/-- C2: over any finite reachable same-domain link graph (a finite list
`U` containing the normalized seed and closed under same-domain link
discovery from fetched pages) and with no page cap, the crawl loop
terminates: some fuel makes the queue empty — and from then on the loop
is the identity, i.e. the loop ends exactly when the queue empties. -/
theorem claim_C2_termination (cfg : CrawlConfig) (start : Str) (U : List Str)
    (hseed : ∀ x : Str, normalize_core start = some x → x ∈ U)
    (hclosed : ∀ (u : Str) (soup : Soup) (x : Str), cfg.fetch u = some soup →
      x ∈ extract_links_from_soup cfg.join soup u →
      (urlsplit x).netloc = base_netloc cfg → x ∈ U) :
    ∃ fuel, (crawlLoop cfg none fuel (initState start)).queue = [] ∧
      ∀ f2, crawlLoop cfg none f2 (crawlLoop cfg none fuel (initState start)) =
        crawlLoop cfg none fuel (initState start) := by
  obtain ⟨fuel, hf⟩ := crawl_term_outer cfg U hclosed
    (U.toFinset \ (initState start).visited.toFinset).card (initState start) (le_refl _)
    (fun x hx => hseed x (List.mem_singleton.mp hx).symm)
  exact ⟨fuel, hf, fun f2 => crawlLoop_queue_nil cfg none f2 _ hf⟩

/-- Witness for C2 at the concrete web with universe
`{https://x.com/, https://x.com/a}`. -/
theorem claim_C2_termination_witness :
    ∃ fuel, (crawlLoop webCfg none fuel (initState "https://x.com".toList)).queue = [] ∧
      ∀ f2, crawlLoop webCfg none f2
          (crawlLoop webCfg none fuel (initState "https://x.com".toList)) =
        crawlLoop webCfg none fuel (initState "https://x.com".toList) := by
  refine claim_C2_termination webCfg "https://x.com".toList
    ["https://x.com/".toList, "https://x.com/a".toList] ?_ ?_
  · intro x hx
    have h1 : normalize_core "https://x.com".toList = some "https://x.com/".toList := by
      decide
    rw [h1] at hx
    have := Option.some.inj hx
    rw [← this]
    decide
  · intro u soup x hf hx hnl
    have hfeq : webCfg.fetch u = if u = "https://x.com/".toList then some soupA else none :=
      rfl
    rw [hfeq] at hf
    by_cases hu : u = "https://x.com/".toList
    · rw [if_pos hu] at hf
      have hsoup : soupA = soup := Option.some.inj hf
      rw [← hsoup] at hx
      rw [hu] at hx
      have hext : extract_links_from_soup webCfg.join soupA "https://x.com/".toList =
          ["https://x.com/a".toList, "https://youtube.com/watch?v=abc".toList] := by decide
      rw [hext] at hx
      rcases List.mem_cons.mp hx with h1 | h2
      · rw [h1]; decide
      · have h3 := List.mem_singleton.mp h2
        rw [h3] at hnl
        exact absurd hnl (by decide)
    · rw [if_neg hu] at hf
      cases hf

/-! ### Idempotence of the normalizer (C3): infrastructure -/

theorem notDelim_eq_true {c : Char} : notDelim c = true ↔ c ≠ '/' ∧ c ≠ '?' ∧ c ≠ '#' := by
  unfold notDelim
  constructor
  · intro h
    simp only [Bool.not_eq_true', Bool.or_eq_false_iff, beq_eq_false_iff_ne] at h
    exact ⟨h.1.1, h.1.2, h.2⟩
  · intro h
    simp only [Bool.not_eq_true', Bool.or_eq_false_iff, beq_eq_false_iff_ne]
    exact ⟨⟨h.1, h.2.1⟩, h.2.2⟩

theorem notDelim_eq_false {c : Char} : notDelim c = false ↔ c = '/' ∨ c = '?' ∨ c = '#' := by
  rw [← Bool.not_eq_true, notDelim_eq_true]
  constructor
  · intro h
    by_cases h1 : c = '/'
    · exact Or.inl h1
    · by_cases h2 : c = '?'
      · exact Or.inr (Or.inl h2)
      · by_cases h3 : c = '#'
        · exact Or.inr (Or.inr h3)
        · exact absurd ⟨h1, h2, h3⟩ h
  · intro h hc
    rcases h with h | h | h
    · exact hc.1 h
    · exact hc.2.1 h
    · exact hc.2.2 h

/-- `toLower` cannot produce a URL delimiter or an unsafe byte from
anything but that character itself. -/
theorem toLower_preserves_notDelim {c : Char} (h : notDelim c = true) :
    notDelim c.toLower = true := by
  rw [notDelim_eq_true] at h ⊢
  refine ⟨?_, ?_, ?_⟩
  · intro he; exact h.1 (toLower_eq_of_not_lower (by decide) he)
  · intro he; exact h.2.1 (toLower_eq_of_not_lower (by decide) he)
  · intro he; exact h.2.2 (toLower_eq_of_not_lower (by decide) he)

theorem toLower_preserves_safe {c : Char} (h : isUnsafeByte c = false) :
    isUnsafeByte c.toLower = false := by
  unfold isUnsafeByte at h ⊢
  simp only [Bool.or_eq_false_iff, beq_eq_false_iff_ne] at h ⊢
  refine ⟨⟨?_, ?_⟩, ?_⟩
  · intro he; exact h.1.1 (toLower_eq_of_not_lower (by decide) he)
  · intro he; exact h.1.2 (toLower_eq_of_not_lower (by decide) he)
  · intro he; exact h.2 (toLower_eq_of_not_lower (by decide) he)

theorem cleanUrl_mem {c : Char} {s : Str} (h : c ∈ cleanUrl s) : isUnsafeByte c = false := by
  unfold cleanUrl at h
  have := (List.mem_filter.mp h).2
  simpa using this

theorem cleanUrl_eq_self {s : Str} (h1 : ∀ c ∈ s, isUnsafeByte c = false)
    (h2 : ∀ c, s.head? = some c → isC0OrSpace c = false) : cleanUrl s = s := by
  unfold cleanUrl
  cases s with
  | nil => rfl
  | cons a t =>
    have ha : isC0OrSpace a = false := h2 a rfl
    have hdw : List.dropWhile isC0OrSpace (a :: t) = a :: t :=
      List.dropWhile_cons_of_neg (by rw [ha]; intro hx; cases hx)
    rw [hdw]
    rw [List.filter_eq_self]
    intro c hc
    rw [h1 c hc]
    rfl

/-- `takeWhile`/`dropWhile` over an append whose right part is empty or
starts with a failing element. -/
theorem takeWhile_append_stop {p : Char → Bool} {ys : Str}
    (hys : ∀ h : ys ≠ [], p (ys.head h) = false) :
    ∀ X : Str, (X ++ ys).takeWhile p = X.takeWhile p ∧
      (X ++ ys).dropWhile p = X.dropWhile p ++ ys := by
  intro X
  induction X with
  | nil =>
    simp only [List.nil_append, List.takeWhile_nil, List.dropWhile_nil]
    cases ys with
    | nil => simp
    | cons y ys' =>
      have hpy : ¬ p y = true := by
        have := hys (by simp)
        simp only [List.head_cons] at this
        rw [this]
        intro hx
        cases hx
      rw [List.takeWhile_cons_of_neg hpy, List.dropWhile_cons_of_neg hpy]
      exact ⟨rfl, rfl⟩
  | cons a X' ih =>
    cases hpa : p a with
    | true =>
      constructor
      · rw [List.cons_append, List.takeWhile_cons_of_pos hpa,
            List.takeWhile_cons_of_pos hpa, ih.1]
      · rw [List.cons_append, List.dropWhile_cons_of_pos hpa,
            List.dropWhile_cons_of_pos hpa, ih.2]
    | false =>
      have hpa' : ¬ p a = true := by rw [hpa]; intro hx; cases hx
      constructor
      · rw [List.cons_append, List.takeWhile_cons_of_neg hpa',
            List.takeWhile_cons_of_neg hpa']
      · rw [List.cons_append, List.dropWhile_cons_of_neg hpa',
            List.dropWhile_cons_of_neg hpa']
        rfl

/-- Members of the netloc after the crawler's netloc normalization are
lower-casings of members of the input. -/
theorem mem_normalizeNetloc {sch nl : Str} {c : Char} (h : c ∈ normalizeNetloc sch nl) :
    ∃ c0 ∈ nl, c = Char.toLower c0 := by
  unfold normalizeNetloc stripPort at h
  have hmap : ∀ {d : Char}, d ∈ nl.map Char.toLower → ∃ c0 ∈ nl, d = Char.toLower c0 := by
    intro d hd
    rcases List.mem_map.mp hd with ⟨c0, hc0, he⟩
    exact ⟨c0, hc0, he.symm⟩
  cases hsf : splitFirst ':' (nl.map Char.toLower) with
  | none => simp only [hsf] at h; exact hmap h
  | some hp =>
    obtain ⟨host, port⟩ := hp
    simp only [hsf] at h
    by_cases hcond : (sch = "http".toList ∧ port = "80".toList) ∨
        (sch = "https".toList ∧ port = "443".toList)
    · rw [if_pos hcond] at h
      have := (splitFirst_mem hsf).1 c h
      exact hmap this
    · rw [if_neg hcond] at h
      exact hmap h

/-- Members of the normalized path are slashes or members of the input. -/
theorem mem_normalizePath {p : Str} {c : Char} (h : c ∈ normalizePath p) :
    c = '/' ∨ c ∈ p := by
  unfold normalizePath at h
  by_cases hp : p = []
  · rw [if_pos hp] at h
    simp only [List.mem_singleton] at *
    left
    revert h
    by_cases hroot : ([('/' : Char)] : Str) ≠ ['/']
    · intro h; exact absurd rfl hroot
    · intro h
      rw [if_neg hroot] at h
      simpa using h
  · rw [if_neg hp] at h
    by_cases hroot : p ≠ ['/']
    · rw [if_pos hroot] at h
      right
      unfold rstripSlash at h
      have := List.mem_reverse.mp h
      have := List.dropWhile_subset _ this
      exact List.mem_reverse.mp this
    · rw [if_neg hroot] at h
      right
      exact h

/-- `_splitparams` returns a prefix of its input as the path part. -/
theorem paramSplit_prefix (p : Str) : ∃ t, p = (paramSplit p).1 ++ t := by
  by_cases h : p.contains '/' = true
  · cases hsl : splitLast '/' p with
    | none =>
      have he : paramSplit p = (p, []) := by unfold paramSplit; rw [if_pos h, hsl]
      rw [he]
      exact ⟨[], (List.append_nil p).symm⟩
    | some ab =>
      obtain ⟨a, b⟩ := ab
      cases hsf : splitFirst ';' b with
      | none =>
        have he : paramSplit p = (p, []) := by
          unfold paramSplit
          rw [if_pos h, hsl]
          show (match splitFirst ';' b with
            | some (x, y) => (a ++ '/' :: x, y)
            | none => (p, [])) = (p, [])
          rw [hsf]
        rw [he]
        exact ⟨[], (List.append_nil p).symm⟩
      | some xy =>
        obtain ⟨x, y⟩ := xy
        have he : paramSplit p = (a ++ '/' :: x, y) := by
          unfold paramSplit
          rw [if_pos h, hsl]
          show (match splitFirst ';' b with
            | some (x, y) => (a ++ '/' :: x, y)
            | none => (p, [])) = (a ++ '/' :: x, y)
          rw [hsf]
        rw [he]
        obtain ⟨hb, -⟩ := splitFirst_eq_some hsf
        obtain ⟨hp, -⟩ := splitLast_eq_some hsl
        refine ⟨';' :: y, ?_⟩
        rw [hp, hb]
        simp
  · cases hsf : splitFirst ';' p with
    | none =>
      have he : paramSplit p = (p, []) := by unfold paramSplit; rw [if_neg h, hsf]
      rw [he]
      exact ⟨[], (List.append_nil p).symm⟩
    | some xy =>
      obtain ⟨x, y⟩ := xy
      have he : paramSplit p = (x, y) := by unfold paramSplit; rw [if_neg h, hsf]
      rw [he]
      obtain ⟨hp, -⟩ := splitFirst_eq_some hsf
      exact ⟨';' :: y, hp⟩

/-! ### Stage lemmas for `urlsplit` -/

theorem splitScheme_eq (url : Str) :
    ((splitScheme url).1 = [] ∧ (splitScheme url).2 = url) ∨
    (∃ before, (splitScheme url).1 = before.map Char.toLower ∧
      url = before ++ ':' :: (splitScheme url).2) := by
  cases hsf : splitFirst ':' url with
  | none =>
    have he : splitScheme url = ([], url) := by unfold splitScheme; rw [hsf]
    rw [he]
    exact Or.inl ⟨rfl, rfl⟩
  | some ba =>
    obtain ⟨before, after⟩ := ba
    by_cases hok : schemeOk before = true
    · have he : splitScheme url = (before.map Char.toLower, after) := by
        unfold splitScheme
        rw [hsf]
        show (if schemeOk before = true then (before.map Char.toLower, after)
          else ([], url)) = _
        rw [if_pos hok]
      rw [he]
      refine Or.inr ⟨before, rfl, ?_⟩
      exact (splitFirst_eq_some hsf).1
    · have he : splitScheme url = ([], url) := by
        unfold splitScheme
        rw [hsf]
        show (if schemeOk before = true then (before.map Char.toLower, after)
          else ([], url)) = _
        rw [if_neg hok]
      rw [he]
      exact Or.inl ⟨rfl, rfl⟩

theorem splitScheme_lower (url : Str) :
    (splitScheme url).1.map Char.toLower = (splitScheme url).1 := by
  rcases splitScheme_eq url with ⟨h1, -⟩ | ⟨before, h1, -⟩
  · rw [h1]; rfl
  · rw [h1, List.map_map]
    apply List.map_congr_left
    intro a _
    exact toLower_toLower a

theorem splitScheme_snd_subset (url : Str) : ∀ c ∈ (splitScheme url).2, c ∈ url := by
  rcases splitScheme_eq url with ⟨-, h2⟩ | ⟨before, -, h2⟩
  · rw [h2]; intro c hc; exact hc
  · intro c hc
    rw [h2]
    exact List.mem_append_right _ (List.mem_cons_of_mem _ hc)

theorem splitScheme_canonical {sch rest : Str} (h1 : ':' ∉ sch) (h2 : schemeOk sch = true)
    (h3 : sch.map Char.toLower = sch) : splitScheme (sch ++ ':' :: rest) = (sch, rest) := by
  unfold splitScheme
  rw [splitFirst_append rest h1]
  show (if schemeOk sch = true then (sch.map Char.toLower, rest)
    else ([], sch ++ ':' :: rest)) = (sch, rest)
  rw [if_pos h2, h3]

theorem splitNetloc_eq (u : Str) :
    ((splitNetloc u).1 = (u.drop 2).takeWhile notDelim ∧
      (splitNetloc u).2 = (u.drop 2).dropWhile notDelim) ∨
    ((splitNetloc u).1 = [] ∧ (splitNetloc u).2 = u) := by
  unfold splitNetloc
  by_cases h : u.take 2 = ['/', '/']
  · rw [if_pos h]; exact Or.inl ⟨rfl, rfl⟩
  · rw [if_neg h]; exact Or.inr ⟨rfl, rfl⟩

theorem splitNetloc_fst_delim (u : Str) : ∀ c ∈ (splitNetloc u).1, notDelim c = true := by
  rcases splitNetloc_eq u with ⟨h1, -⟩ | ⟨h1, -⟩
  · rw [h1]
    intro c hc
    exact List.mem_takeWhile_imp hc
  · rw [h1]
    intro c hc
    cases hc

theorem splitNetloc_fst_subset (u : Str) : ∀ c ∈ (splitNetloc u).1, c ∈ u := by
  rcases splitNetloc_eq u with ⟨h1, -⟩ | ⟨h1, -⟩
  · rw [h1]
    intro c hc
    exact List.drop_subset 2 u (List.takeWhile_subset _ hc)
  · rw [h1]
    intro c hc
    cases hc

theorem splitNetloc_snd_subset (u : Str) : ∀ c ∈ (splitNetloc u).2, c ∈ u := by
  rcases splitNetloc_eq u with ⟨-, h2⟩ | ⟨-, h2⟩
  · rw [h2]
    intro c hc
    exact List.drop_subset 2 u (List.dropWhile_subset _ hc)
  · rw [h2]
    intro c hc
    exact hc

theorem splitNetloc_canonical {X ys : Str}
    (hys : ∀ h : ys ≠ [], notDelim (ys.head h) = false) :
    splitNetloc ('/' :: '/' :: (X ++ ys)) =
      (X.takeWhile notDelim, X.dropWhile notDelim ++ ys) := by
  unfold splitNetloc
  rw [if_pos (show List.take 2 ('/' :: '/' :: (X ++ ys)) = ['/', '/'] from rfl)]
  show ((X ++ ys).takeWhile notDelim, (X ++ ys).dropWhile notDelim) = _
  rw [(takeWhile_append_stop hys X).1, (takeWhile_append_stop hys X).2]

theorem splitFragment_fst_no_hash (u : Str) : '#' ∉ (splitFragment u).1 := by
  unfold splitFragment
  cases hsf : splitFirst '#' u with
  | none => exact splitFirst_eq_none hsf
  | some ba =>
    obtain ⟨b, a⟩ := ba
    exact (splitFirst_eq_some hsf).2

theorem splitFragment_fst_subset (u : Str) : ∀ c ∈ (splitFragment u).1, c ∈ u := by
  unfold splitFragment
  cases hsf : splitFirst '#' u with
  | none => intro c hc; exact hc
  | some ba =>
    obtain ⟨b, a⟩ := ba
    exact (splitFirst_mem hsf).1

theorem splitFragment_no_hash (u : Str) (h : '#' ∉ u) : splitFragment u = (u, []) := by
  unfold splitFragment
  rw [splitFirst_of_not_mem h]

theorem splitQuery_fst_no_q (u : Str) : '?' ∉ (splitQuery u).1 := by
  unfold splitQuery
  cases hsf : splitFirst '?' u with
  | none => exact splitFirst_eq_none hsf
  | some ba =>
    obtain ⟨b, a⟩ := ba
    exact (splitFirst_eq_some hsf).2

theorem splitQuery_fst_subset (u : Str) : ∀ c ∈ (splitQuery u).1, c ∈ u := by
  unfold splitQuery
  cases hsf : splitFirst '?' u with
  | none => intro c hc; exact hc
  | some ba =>
    obtain ⟨b, a⟩ := ba
    exact (splitFirst_mem hsf).1

theorem splitQuery_snd_subset (u : Str) : ∀ c ∈ (splitQuery u).2, c ∈ u := by
  unfold splitQuery
  cases hsf : splitFirst '?' u with
  | none => intro c hc; cases hc
  | some ba =>
    obtain ⟨b, a⟩ := ba
    exact (splitFirst_mem hsf).2

theorem splitQuery_no_q (u : Str) (h : '?' ∉ u) : splitQuery u = (u, []) := by
  unfold splitQuery
  rw [splitFirst_of_not_mem h]

theorem splitQuery_canonical {a q : Str} (h : '?' ∉ a) :
    splitQuery (a ++ '?' :: q) = (a, q) := by
  unfold splitQuery
  rw [splitFirst_append q h]

/-- Structural facts about any `urlsplit` result: the scheme is
lower-cased, the netloc is free of delimiters, the path contains no `?` or
`#`, the query no `#`, and all parts are free of removed unsafe bytes. -/
theorem urlsplit_facts (x : Str) :
    ((urlsplit x).scheme.map Char.toLower = (urlsplit x).scheme) ∧
    (∀ c ∈ (urlsplit x).netloc, notDelim c = true) ∧
    ('?' ∉ (urlsplit x).path) ∧ ('#' ∉ (urlsplit x).path) ∧ ('#' ∉ (urlsplit x).query) ∧
    (∀ c ∈ (urlsplit x).netloc, isUnsafeByte c = false) ∧
    (∀ c ∈ (urlsplit x).path, isUnsafeByte c = false) ∧
    (∀ c ∈ (urlsplit x).query, isUnsafeByte c = false) := by
  have hu : urlsplit x =
      ⟨(splitScheme (cleanUrl x)).1,
       (splitNetloc (splitScheme (cleanUrl x)).2).1,
       (splitQuery (splitFragment (splitNetloc (splitScheme (cleanUrl x)).2).2).1).1,
       (splitQuery (splitFragment (splitNetloc (splitScheme (cleanUrl x)).2).2).1).2,
       (splitFragment (splitNetloc (splitScheme (cleanUrl x)).2).2).2⟩ := rfl
  rw [hu]
  have s1 : ∀ c ∈ (splitScheme (cleanUrl x)).2, c ∈ cleanUrl x :=
    splitScheme_snd_subset (cleanUrl x)
  have s2 : ∀ c ∈ (splitNetloc (splitScheme (cleanUrl x)).2).2, c ∈ cleanUrl x :=
    fun c hc => s1 c (splitNetloc_snd_subset _ c hc)
  have s3 : ∀ c ∈ (splitFragment (splitNetloc (splitScheme (cleanUrl x)).2).2).1,
      c ∈ cleanUrl x :=
    fun c hc => s2 c (splitFragment_fst_subset _ c hc)
  refine ⟨splitScheme_lower _, splitNetloc_fst_delim _, splitQuery_fst_no_q _,
    ?_, ?_, ?_, ?_, ?_⟩
  · intro hmem
    exact splitFragment_fst_no_hash _ (splitQuery_fst_subset _ _ hmem)
  · intro hmem
    exact splitFragment_fst_no_hash _ (splitQuery_snd_subset _ _ hmem)
  · intro c hc
    exact cleanUrl_mem (s1 c (splitNetloc_fst_subset _ c hc))
  · intro c hc
    exact cleanUrl_mem (s3 c (splitQuery_fst_subset _ c hc))
  · intro c hc
    exact cleanUrl_mem (s3 c (splitQuery_snd_subset _ c hc))

theorem urlparse_scheme (x : Str) : (urlparse x).scheme = (urlsplit x).scheme := by
  unfold urlparse
  by_cases h : (urlsplit x).scheme ∈ USES_PARAMS ∧ (urlsplit x).path.contains ';' = true
  · rw [if_pos h]
  · rw [if_neg h]

theorem urlparse_netloc (x : Str) : (urlparse x).netloc = (urlsplit x).netloc := by
  unfold urlparse
  by_cases h : (urlsplit x).scheme ∈ USES_PARAMS ∧ (urlsplit x).path.contains ';' = true
  · rw [if_pos h]
  · rw [if_neg h]

theorem urlparse_query (x : Str) : (urlparse x).query = (urlsplit x).query := by
  unfold urlparse
  by_cases h : (urlsplit x).scheme ∈ USES_PARAMS ∧ (urlsplit x).path.contains ';' = true
  · rw [if_pos h]
  · rw [if_neg h]

theorem urlparse_path_cases (x : Str) :
    (urlparse x).path = (urlsplit x).path ∨
      (urlparse x).path = (paramSplit (urlsplit x).path).1 := by
  unfold urlparse
  by_cases h : (urlsplit x).scheme ∈ USES_PARAMS ∧ (urlsplit x).path.contains ';' = true
  · rw [if_pos h]; exact Or.inr rfl
  · rw [if_neg h]; exact Or.inl rfl

/-- The parsed path is a prefix of the split path. -/
theorem urlparse_path_prefix (x : Str) : ∃ t, (urlsplit x).path = (urlparse x).path ++ t := by
  rcases urlparse_path_cases x with h | h
  · exact ⟨[], by rw [h, List.append_nil]⟩
  · rw [h]
    exact paramSplit_prefix _

/-- When the parameter split is trivial, `urlparse` coincides with
`urlsplit` (with empty params). -/
theorem urlparse_of_noparams {x : Str}
    (h : paramSplit (urlsplit x).path = ((urlsplit x).path, [])) :
    urlparse x = ⟨(urlsplit x).scheme, (urlsplit x).netloc, (urlsplit x).path, [],
      (urlsplit x).query, (urlsplit x).fragment⟩ := by
  unfold urlparse
  by_cases hc : (urlsplit x).scheme ∈ USES_PARAMS ∧ (urlsplit x).path.contains ';' = true
  · rw [if_pos hc, h]
  · rw [if_neg hc]

/-- Shape of every successful normalizer output: a lower-case http(s)
scheme, then `://`-anchored material `X` free of `?`, `#` and unsafe
bytes, then an optional `?query`. -/
theorem normalize_core_shape {u s : Str} (hn : normalize_core u = some s) :
    ∃ sch X q, (sch = "http".toList ∨ sch = "https".toList) ∧
      '?' ∉ X ∧ '#' ∉ X ∧ '#' ∉ q ∧
      (∀ c ∈ X, isUnsafeByte c = false) ∧ (∀ c ∈ q, isUnsafeByte c = false) ∧
      s = sch ++ ':' :: (('/' :: '/' :: X) ++ (if q = [] then [] else '?' :: q)) := by
  unfold normalize_core at hn
  by_cases hg : (urlparse (urldefrag u)).scheme ≠ [] ∧
      (urlparse (urldefrag u)).scheme.map Char.toLower ∉ ["http".toList, "https".toList]
  · rw [if_pos hg] at hn; cases hn
  · rw [if_neg hg] at hn
    have hs : urlunsplit
        (if (urlparse (urldefrag u)).scheme = [] then "https".toList
          else (urlparse (urldefrag u)).scheme)
        (normalizeNetloc
          (if (urlparse (urldefrag u)).scheme = [] then "https".toList
            else (urlparse (urldefrag u)).scheme)
          (urlparse (urldefrag u)).netloc)
        (normalizePath (urlparse (urldefrag u)).path)
        (urlparse (urldefrag u)).query [] = s := Option.some.inj hn
    set sch0 := (if (urlparse (urldefrag u)).scheme = [] then "https".toList
      else (urlparse (urldefrag u)).scheme) with hsch0def
    set nl0 := normalizeNetloc sch0 (urlparse (urldefrag u)).netloc with hnl0def
    set path0 := normalizePath (urlparse (urldefrag u)).path with hpath0def
    set q0 := (urlparse (urldefrag u)).query with hq0def
    obtain ⟨flow, fnl, fpq, fph, fqh, fnlc, fpc, fqc⟩ := urlsplit_facts (urldefrag u)
    have hsch : sch0 = "http".toList ∨ sch0 = "https".toList := by
      rw [hsch0def]
      by_cases hpe : (urlparse (urldefrag u)).scheme = []
      · rw [if_pos hpe]; exact Or.inr rfl
      · rw [if_neg hpe]
        have hmem : (urlparse (urldefrag u)).scheme.map Char.toLower ∈
            ["http".toList, "https".toList] := by
          rcases not_and_or.mp hg with h1 | h2
          · exact absurd hpe (not_not.mp (by simpa using h1))
          · exact not_not.mp h2
        rw [urlparse_scheme, flow] at hmem
        rw [urlparse_scheme]
        rcases List.mem_cons.mp hmem with h1 | h2
        · exact Or.inl h1
        · exact Or.inr (List.mem_singleton.mp h2)
    have hnlfacts : ∀ c ∈ nl0, notDelim c = true ∧ isUnsafeByte c = false := by
      intro c hc
      rcases mem_normalizeNetloc hc with ⟨c0, hc0, he⟩
      rw [urlparse_netloc] at hc0
      rw [he]
      exact ⟨toLower_preserves_notDelim (fnl c0 hc0),
        toLower_preserves_safe (fnlc c0 hc0)⟩
    have hpathmem : ∀ c ∈ path0, c = '/' ∨ c ∈ (urlsplit (urldefrag u)).path := by
      intro c hc
      rcases mem_normalizePath hc with h1 | h2
      · exact Or.inl h1
      · obtain ⟨t, hpfx⟩ := urlparse_path_prefix (urldefrag u)
        right
        rw [hpfx]
        exact List.mem_append_left _ h2
    have hpathfacts : '?' ∉ path0 ∧ '#' ∉ path0 ∧ ∀ c ∈ path0, isUnsafeByte c = false := by
      refine ⟨?_, ?_, ?_⟩
      · intro hmem
        rcases hpathmem _ hmem with h1 | h2
        · cases h1
        · exact fpq h2
      · intro hmem
        rcases hpathmem _ hmem with h1 | h2
        · cases h1
        · exact fph h2
      · intro c hc
        rcases hpathmem c hc with h1 | h2
        · rw [h1]; rfl
        · exact fpc c h2
    have hqfacts : '#' ∉ q0 ∧ ∀ c ∈ q0, isUnsafeByte c = false := by
      rw [hq0def, urlparse_query]
      exact ⟨fqh, fqc⟩
    have hschne : sch0 ≠ [] := by
      rcases hsch with h | h <;> rw [h] <;> intro hx <;> cases hx
    have hschuse : sch0 ∈ USES_NETLOC := by
      rcases hsch with h | h <;> rw [h] <;> decide
    by_cases hcond : nl0 ≠ [] ∨ (sch0 ≠ [] ∧ sch0 ∈ USES_NETLOC ∧
        path0.take 2 ≠ ['/', '/'])
    · -- reassembly through the netloc branch
      set url2 := (if path0 ≠ [] ∧ path0.take 1 ≠ ['/'] then '/' :: path0 else path0)
        with hurl2def
      have hs2 : s = (if q0 ≠ [] then
          (sch0 ++ ':' :: ('/' :: '/' :: (nl0 ++ url2))) ++ '?' :: q0
          else sch0 ++ ':' :: ('/' :: '/' :: (nl0 ++ url2))) := by
        rw [← hs]
        simp only [urlunsplit]
        rw [if_pos hcond, if_pos hschne]
        rw [if_neg (show ¬(([] : Str) ≠ []) from not_not_intro rfl)]
      have hurl2mem : ∀ c ∈ url2, c = '/' ∨ c ∈ path0 := by
        rw [hurl2def]
        by_cases hi : path0 ≠ [] ∧ path0.take 1 ≠ ['/']
        · rw [if_pos hi]
          intro c hc
          rcases List.mem_cons.mp hc with h1 | h2
          · exact Or.inl h1
          · exact Or.inr h2
        · rw [if_neg hi]
          intro c hc
          exact Or.inr hc
      refine ⟨sch0, nl0 ++ url2, q0, hsch, ?_, ?_, hqfacts.1, ?_, hqfacts.2, ?_⟩
      · intro hmem
        rcases List.mem_append.mp hmem with h1 | h2
        · have := (hnlfacts _ h1).1
          rw [notDelim_eq_true] at this
          exact this.2.1 rfl
        · rcases hurl2mem _ h2 with h3 | h4
          · cases h3
          · exact hpathfacts.1 h4
      · intro hmem
        rcases List.mem_append.mp hmem with h1 | h2
        · have := (hnlfacts _ h1).1
          rw [notDelim_eq_true] at this
          exact this.2.2 rfl
        · rcases hurl2mem _ h2 with h3 | h4
          · cases h3
          · exact hpathfacts.2.1 h4
      · intro c hc
        rcases List.mem_append.mp hc with h1 | h2
        · exact (hnlfacts _ h1).2
        · rcases hurl2mem _ h2 with h3 | h4
          · rw [h3]; rfl
          · exact hpathfacts.2.2 c h4
      · rw [hs2]
        by_cases hq0 : q0 = []
        · rw [if_neg (show ¬(q0 ≠ []) from not_not_intro hq0), if_pos hq0, List.append_nil]
        · rw [if_pos (show q0 ≠ [] from hq0), if_neg hq0]
          rw [List.append_assoc]
          rfl
    · -- the `//`-prefixed-path branch: the netloc marker is not re-added
      push_neg at hcond
      obtain ⟨hnl0, hrest⟩ := hcond
      have htake : path0.take 2 = ['/', '/'] := hrest hschne hschuse
      have hpath0eq : path0 = '/' :: '/' :: path0.drop 2 := by
        have := List.take_append_drop 2 path0
        rw [htake] at this
        exact this.symm
      have hs2 : s = (if q0 ≠ [] then (sch0 ++ ':' :: path0) ++ '?' :: q0
          else sch0 ++ ':' :: path0) := by
        rw [← hs]
        simp only [urlunsplit]
        rw [if_neg (show ¬(nl0 ≠ [] ∨ (sch0 ≠ [] ∧ sch0 ∈ USES_NETLOC ∧
            path0.take 2 ≠ ['/', '/'])) by
          push_neg
          exact ⟨hnl0, fun _ _ => hrest hschne hschuse⟩)]
        rw [if_pos hschne]
        rw [if_neg (show ¬(([] : Str) ≠ []) from not_not_intro rfl)]
      refine ⟨sch0, path0.drop 2, q0, hsch, ?_, ?_, hqfacts.1, ?_, hqfacts.2, ?_⟩
      · intro hmem
        exact hpathfacts.1 (List.drop_subset 2 path0 hmem)
      · intro hmem
        exact hpathfacts.2.1 (List.drop_subset 2 path0 hmem)
      · intro c hc
        exact hpathfacts.2.2 c (List.drop_subset 2 path0 hc)
      · rw [hs2]
        by_cases hq0 : q0 = []
        · rw [if_neg (show ¬(q0 ≠ []) from not_not_intro hq0), if_pos hq0,
              List.append_nil, ← hpath0eq]
        · rw [if_pos (show q0 ≠ [] from hq0), if_neg hq0]
          rw [List.append_assoc]
          rw [← hpath0eq]
          rfl

/-- Re-parsing a string in the canonical normalized shape recovers its
parts: scheme, then netloc up to the first delimiter, then path, then
query, with no fragment. -/
theorem urlsplit_canonical {sch X q : Str}
    (hsch : sch = "http".toList ∨ sch = "https".toList)
    (hq1 : '?' ∉ X) (hq2 : '#' ∉ X) (hq3 : '#' ∉ q)
    (hc1 : ∀ c ∈ X, isUnsafeByte c = false) (hc2 : ∀ c ∈ q, isUnsafeByte c = false) :
    urlsplit (sch ++ ':' :: (('/' :: '/' :: X) ++ (if q = [] then [] else '?' :: q))) =
      ⟨sch, X.takeWhile notDelim, X.dropWhile notDelim, q, []⟩ := by
  set qtail := (if q = [] then [] else '?' :: q : Str) with hqtail
  set s := sch ++ ':' :: (('/' :: '/' :: X) ++ qtail) with hsdef
  have hqtmem : ∀ c ∈ qtail, c = '?' ∨ c ∈ q := by
    rw [hqtail]
    by_cases hq : q = []
    · rw [if_pos hq]; intro c hc; cases hc
    · rw [if_neg hq]
      intro c hc
      rcases List.mem_cons.mp hc with h | h
      · exact Or.inl h
      · exact Or.inr h
  have hqthead : ∀ h : qtail ≠ [], notDelim (qtail.head h) = false := by
    rw [hqtail]
    by_cases hq : q = []
    · rw [if_pos hq]; intro h; exact absurd rfl h
    · rw [if_neg hq]
      intro h
      simp only [List.head_cons]
      rfl
  have hschfacts : ':' ∉ sch ∧ schemeOk sch = true ∧ sch.map Char.toLower = sch ∧
      (∀ c ∈ sch, isUnsafeByte c = false) := by
    rcases hsch with h | h <;> rw [h] <;>
      exact ⟨by decide, by decide, by decide, by decide⟩
  have hsclean : cleanUrl s = s := by
    apply cleanUrl_eq_self
    · intro c hc
      rw [hsdef] at hc
      rcases List.mem_append.mp hc with h1 | h2
      · exact hschfacts.2.2.2 c h1
      · rcases List.mem_cons.mp h2 with h3 | h4
        · rw [h3]; rfl
        · rcases List.mem_append.mp h4 with h5 | h6
          · rcases List.mem_cons.mp h5 with h7 | h8
            · rw [h7]; rfl
            · rcases List.mem_cons.mp h8 with h9 | h10
              · rw [h9]; rfl
              · exact hc1 c h10
          · rcases hqtmem c h6 with h7 | h8
            · rw [h7]; rfl
            · exact hc2 c h8
    · intro c hc
      rcases hsch with h | h
      · have hs' : s = 'h' :: ("ttp".toList ++ ':' :: (('/' :: '/' :: X) ++ qtail)) := by
          rw [hsdef, h]
          rfl
        rw [hs'] at hc
        simp only [List.head?_cons, Option.some.injEq] at hc
        rw [← hc]
        rfl
      · have hs' : s = 'h' :: ("ttps".toList ++ ':' :: (('/' :: '/' :: X) ++ qtail)) := by
          rw [hsdef, h]
          rfl
        rw [hs'] at hc
        simp only [List.head?_cons, Option.some.injEq] at hc
        rw [← hc]
        rfl
  have h1 : splitScheme s = (sch, ('/' :: '/' :: X) ++ qtail) := by
    rw [hsdef]
    exact splitScheme_canonical hschfacts.1 hschfacts.2.1 hschfacts.2.2.1
  have e1 : (splitScheme (cleanUrl s)).1 = sch := by rw [hsclean, h1]
  have e2 : (splitScheme (cleanUrl s)).2 = ('/' :: '/' :: X) ++ qtail := by rw [hsclean, h1]
  have h2 : splitNetloc (('/' :: '/' :: X) ++ qtail) =
      (X.takeWhile notDelim, X.dropWhile notDelim ++ qtail) := by
    have hshape : ('/' :: '/' :: X) ++ qtail = '/' :: '/' :: (X ++ qtail) := rfl
    rw [hshape]
    exact splitNetloc_canonical hqthead
  have e3 : (splitNetloc (splitScheme (cleanUrl s)).2).1 = X.takeWhile notDelim := by
    rw [e2, h2]
  have e4 : (splitNetloc (splitScheme (cleanUrl s)).2).2 = X.dropWhile notDelim ++ qtail := by
    rw [e2, h2]
  have h3 : splitFragment (X.dropWhile notDelim ++ qtail) =
      (X.dropWhile notDelim ++ qtail, []) := by
    apply splitFragment_no_hash
    intro hmem
    rcases List.mem_append.mp hmem with hm1 | hm2
    · exact hq2 (List.dropWhile_subset _ hm1)
    · rcases hqtmem _ hm2 with hm3 | hm4
      · cases hm3
      · exact hq3 hm4
  have e5 : (splitFragment (splitNetloc (splitScheme (cleanUrl s)).2).2).1 =
      X.dropWhile notDelim ++ qtail := by
    rw [e4, h3]
  have e6 : (splitFragment (splitNetloc (splitScheme (cleanUrl s)).2).2).2 = [] := by
    rw [e4, h3]
  have h4 : splitQuery (X.dropWhile notDelim ++ qtail) = (X.dropWhile notDelim, q) := by
    have hnq : '?' ∉ X.dropWhile notDelim := fun hmem => hq1 (List.dropWhile_subset _ hmem)
    rw [hqtail]
    by_cases hq : q = []
    · rw [if_pos hq, List.append_nil, splitQuery_no_q _ hnq, hq]
    · rw [if_neg hq]
      exact splitQuery_canonical hnq
  have e7 : (splitQuery (splitFragment (splitNetloc (splitScheme (cleanUrl s)).2).2).1).1 =
      X.dropWhile notDelim := by
    rw [e5, h4]
  have e8 : (splitQuery (splitFragment (splitNetloc (splitScheme (cleanUrl s)).2).2).1).2 =
      q := by
    rw [e5, h4]
  have hu : urlsplit s =
      ⟨(splitScheme (cleanUrl s)).1,
       (splitNetloc (splitScheme (cleanUrl s)).2).1,
       (splitQuery (splitFragment (splitNetloc (splitScheme (cleanUrl s)).2).2).1).1,
       (splitQuery (splitFragment (splitNetloc (splitScheme (cleanUrl s)).2).2).1).2,
       (splitFragment (splitNetloc (splitScheme (cleanUrl s)).2).2).2⟩ := rfl
  rw [hu, e1, e3, e6, e7, e8]

/-- Evaluation of the normalizer body on a fragment-free input with known
parse. -/
theorem normalize_core_eval {x psc pnl ppa ppr pq pf : Str} (hdf : urldefrag x = x)
    (hup : urlparse x = ⟨psc, pnl, ppa, ppr, pq, pf⟩)
    (hguard : ¬(psc ≠ [] ∧ psc.map Char.toLower ∉ ["http".toList, "https".toList])) :
    normalize_core x = some (urlunsplit (if psc = [] then "https".toList else psc)
      (normalizeNetloc (if psc = [] then "https".toList else psc) pnl)
      (normalizePath ppa) pq []) := by
  simp only [normalize_core]
  rw [hdf, hup]
  show (if psc ≠ [] ∧ psc.map Char.toLower ∉ ["http".toList, "https".toList] then none
    else some (urlunparse ⟨(if psc = [] then "https".toList else psc),
      normalizeNetloc (if psc = [] then "https".toList else psc) pnl,
      normalizePath ppa, [], pq, []⟩)) = _
  rw [if_neg hguard]
  rfl

/-- C3 (amended): normalization is idempotent on every input whose
normalized form re-parses to already-normalized components — the parsed
path of `normalize(u)` is a fixed point of path normalization, yields no
parameter split, the parsed netloc is a fixed point of netloc
normalization, and the netloc is not empty while the path starts with two
slashes.  The counterexamples show each escape hatch is real. -/
theorem claim_C3_idempotence (u s : Str) (hn : normalize_core u = some s)
    (hpath : normalizePath (urlsplit s).path = (urlsplit s).path)
    (hparams : paramSplit (urlsplit s).path = ((urlsplit s).path, []))
    (hnetloc : normalizeNetloc (urlsplit s).scheme (urlsplit s).netloc = (urlsplit s).netloc)
    (hshape : ¬((urlsplit s).netloc = [] ∧ (urlsplit s).path.take 2 = ['/', '/'])) :
    normalize_core s = some s := by
  obtain ⟨sch, X, q, hsch, hq1, hq2, hq3, hc1, hc2, hs⟩ := normalize_core_shape hn
  subst hs
  set qtail := (if q = [] then [] else '?' :: q : Str) with hqtail
  set s := sch ++ ':' :: (('/' :: '/' :: X) ++ qtail) with hsdef
  set nl2 := X.takeWhile notDelim with hnl2def
  set path2 := X.dropWhile notDelim with hpath2def
  have hsplit : urlsplit s = ⟨sch, nl2, path2, q, []⟩ := by
    rw [hsdef, hqtail]
    exact urlsplit_canonical hsch hq1 hq2 hq3 hc1 hc2
  have hS : (urlsplit s).scheme = sch := by rw [hsplit]
  have hN : (urlsplit s).netloc = nl2 := by rw [hsplit]
  have hP : (urlsplit s).path = path2 := by rw [hsplit]
  have hQ : (urlsplit s).query = q := by rw [hsplit]
  have hF : (urlsplit s).fragment = [] := by rw [hsplit]
  have hschne : sch ≠ [] := by
    rcases hsch with h | h <;> rw [h] <;> intro hx <;> cases hx
  have hschuse : sch ∈ USES_NETLOC := by
    rcases hsch with h | h <;> rw [h] <;> decide
  have hschhash : '#' ∉ sch := by
    rcases hsch with h | h <;> rw [h] <;> decide
  have hqtmem : ∀ c ∈ qtail, c = '?' ∨ c ∈ q := by
    rw [hqtail]
    by_cases hq : q = []
    · rw [if_pos hq]; intro c hc; cases hc
    · rw [if_neg hq]
      intro c hc
      rcases List.mem_cons.mp hc with h | h
      · exact Or.inl h
      · exact Or.inr h
  have hnothash : '#' ∉ s := by
    rw [hsdef]
    intro hmem
    rcases List.mem_append.mp hmem with h1 | h2
    · exact hschhash h1
    · rcases List.mem_cons.mp h2 with h3 | h4
      · cases h3
      · rcases List.mem_append.mp h4 with h5 | h6
        · rcases List.mem_cons.mp h5 with h7 | h8
          · cases h7
          · rcases List.mem_cons.mp h8 with h9 | h10
            · cases h9
            · exact hq2 h10
        · rcases hqtmem _ h6 with h7 | h8
          · cases h7
          · exact hq3 h8
  have hdefrag : urldefrag s = s := by
    unfold urldefrag
    rw [if_neg]
    intro hct
    exact hnothash (List.elem_iff.mp hct)
  have hup : urlparse s = ⟨sch, nl2, path2, [], q, []⟩ := by
    rw [urlparse_of_noparams hparams, hS, hN, hP, hQ, hF]
  have hguard : ¬(sch ≠ [] ∧ sch.map Char.toLower ∉ ["http".toList, "https".toList]) := by
    rcases hsch with h | h <;> rw [h] <;> decide
  have heval := normalize_core_eval hdefrag hup hguard
  rw [if_neg (show ¬(sch = []) from hschne)] at heval
  rw [hP] at hpath
  rw [hS, hN] at hnetloc
  rw [hpath, hnetloc] at heval
  -- heval : normalize_core s = some (urlunsplit sch nl2 path2 q [])
  have hX : nl2 ++ path2 = X := by
    rw [hnl2def, hpath2def]
    exact List.takeWhile_append_dropWhile notDelim X
  have hpath2head : path2 = [] ∨ path2.take 1 = ['/'] := by
    cases hp2 : path2 with
    | nil => exact Or.inl rfl
    | cons c t =>
      right
      have hh : (X.dropWhile notDelim).head? = some c := by
        rw [← hpath2def, hp2]
        rfl
      have h5 := List.head?_dropWhile_not notDelim X
      rw [hh] at h5
      have hcfalse : notDelim c = false := h5
      have hcin : c ∈ path2 := by rw [hp2]; exact List.mem_cons_self _ _
      have hcX : c ∈ X := by
        rw [hpath2def] at hcin
        exact List.dropWhile_subset _ hcin
      rcases notDelim_eq_false.mp hcfalse with h | h | h
      · rw [h]; rfl
      · exact absurd (h ▸ hcX) hq1
      · exact absurd (h ▸ hcX) hq2
  have hcond : nl2 ≠ [] ∨ (sch ≠ [] ∧ sch ∈ USES_NETLOC ∧ path2.take 2 ≠ ['/', '/']) := by
    by_cases hnl2e : nl2 = []
    · right
      refine ⟨hschne, hschuse, ?_⟩
      intro htk
      rw [hN, hP] at hshape
      exact hshape ⟨hnl2e, htk⟩
    · exact Or.inl hnl2e
  have hins : ¬(path2 ≠ [] ∧ path2.take 1 ≠ ['/']) := by
    rcases hpath2head with h | h
    · intro hx; exact hx.1 h
    · intro hx; exact hx.2 h
  have hfinal : urlunsplit sch nl2 path2 q [] = s := by
    simp only [urlunsplit]
    rw [if_pos hcond, if_neg hins, if_pos hschne]
    rw [if_neg (show ¬(([] : Str) ≠ []) from not_not_intro rfl)]
    rw [hsdef, hqtail]
    by_cases hq : q = []
    · rw [if_neg (show ¬(q ≠ []) from not_not_intro hq), if_pos hq, List.append_nil, hX]
    · rw [if_pos (show q ≠ [] from hq), if_neg hq, hX]
      rw [List.append_assoc]
      rfl
  rw [heval, hfinal]

/-- C3 counterexamples: normalization is NOT idempotent in general.  Three
failure families, one per escape hatch of the amended claim:
(a) an all-slash path is stripped to empty, and re-normalizing restores "/";
(b) a surviving semicolon in the path is split off as params on the second
pass and discarded; (c) an empty netloc with a path starting "//" makes the
unsplit output re-parse with part of the path as a (here upper-case) netloc,
which the second pass lower-cases. -/
theorem claim_C3_counterexample :
    (normalize_core ("https://x.com//".toList) = some ("https://x.com".toList) ∧
      normalize_core ("https://x.com".toList) ≠ some ("https://x.com".toList)) ∧
    (normalize_core ("https://x.com/a;b/".toList) = some ("https://x.com/a;b".toList) ∧
      normalize_core ("https://x.com/a;b".toList) ≠ some ("https://x.com/a;b".toList)) ∧
    (normalize_core ("https:////A/b".toList) = some ("https://A/b".toList) ∧
      normalize_core ("https://A/b".toList) ≠ some ("https://A/b".toList)) := by
  decide

theorem claim_C3_idempotence_witness :
    normalize_core ("https://x.com/a/".toList) = some ("https://x.com/a".toList) ∧
    normalize_core ("https://x.com/a".toList) = some ("https://x.com/a".toList) :=
  ⟨by decide,
    claim_C3_idempotence ("https://x.com/a/".toList) ("https://x.com/a".toList)
      (by decide) (by decide) (by decide) (by decide) (by decide)⟩
